import Mathlib

/-!
Verification of the mosaic puzzle solving engine (src/mosaic-solver.js).

The development shallowly embeds the solver: the global safety manager
(SolverSafetyManager) becomes an explicit state record threaded through every
operation, JS 2D arrays become `List (List Int)` with -1 = unknown,
0 = empty, 1 = filled, clue grids become `List (List (Option Int))` with
`none` for a cell without a clue, and the mutable CSP object (variables with
value and domain, constraints with a scope of cells) becomes a list of
variable records indexed by the row-major cell index, updated functionally.
The recursive searches take an explicit fuel argument; the fuel plays no
role in the JS code (whose recursions terminate because every recursive call
has strictly more assigned cells) and a ghost flag records the (unreachable
for sufficiently large fuel) fuel-exhaustion exit.  Three ghost fields on the
manager record facts about a run that the claims quantify over: whether any
stop signal was issued, whether an AC-3 invocation ran out of its 1000-arc
budget, and the fuel flag; none of them influences any computed result.
-/

namespace Mosaic

/-- Solution grids: JS 2D arrays of -1 (unknown), 0 (empty), 1 (filled). -/
abbrev Sol := List (List Int)

/-- Clue grids: `some k` a numeric clue, `none` a cell without a clue. -/
abbrev ClueGrid := List (List (Option Int))

/-- `constraintGrid[r][c]` for an in-bounds access of a rectangular grid. -/
def clueAt (g : ClueGrid) (r c : Nat) : Option Int := (g.getD r []).getD c none

/-- `solution[r][c]`; the default -2 is never the value of an in-bounds cell
of a well-formed grid (cells are -1, 0 or 1). -/
def cellAt (sol : Sol) (r c : Nat) : Int := (sol.getD r []).getD c (-2)

/-- `solution[r][c] = v` as a functional update. -/
def setCell (sol : Sol) (r c : Nat) (v : Int) : Sol :=
  sol.set r ((sol.getD r []).set c v)

/-- The nine relative offsets of the 3x3 window, in source order. -/
def directions3x3 : List (Int × Int) :=
  [(-1,-1),(-1,0),(-1,1),(0,-1),(0,0),(0,1),(1,-1),(1,0),(1,1)]

/-- get3x3Area: the clipped 3x3 window around (row, col), center included. -/
def get3x3Area (row col rows cols : Nat) : List (Nat × Nat) :=
  directions3x3.filterMap fun d =>
    let nr : Int := (row : Int) + d.1
    let nc : Int := (col : Int) + d.2
    if 0 ≤ nr ∧ nr < (rows : Int) ∧ 0 ≤ nc ∧ nc < (cols : Int) then
      some (nr.toNat, nc.toNat)
    else none

/-! ## The safety manager (SolverSafetyManager)

One record per run.  `tripped`, `capEver` and `fuelOut` are ghost fields:
`tripped` records that some call of `shouldStop` or `enterRecursion`
returned true during the run, `capEver` that some AC-3 invocation exited
with its 1000-arc iteration budget exhausted, `fuelOut` that the modelling
fuel of a recursion ran out.  No computation reads them. -/

structure Mgr where
  startTime : Int
  maxTimeMs : Int
  maxRecursionDepth : Int
  maxIterations : Nat
  operationCount : Nat
  currentDepth : Int
  isTimeoutExceeded : Bool
  now : Int
  tripped : Bool
  capEver : Bool
  fuelOut : Bool
deriving DecidableEq, Repr

/-- reset(): per-run initialisation; configuration thresholds persist. -/
def Mgr.reset (m : Mgr) : Mgr :=
  { m with startTime := m.now, operationCount := 0, currentDepth := 0,
           isTimeoutExceeded := false,
           tripped := false, capEver := false, fuelOut := false }

/-- checkTimeout(): sets the sticky flag when the elapsed wall-clock time
exceeds the budget (the JS truthiness test on startTime is ≠ 0). -/
def checkTimeout (m : Mgr) : Bool × Mgr :=
  if m.startTime ≠ 0 ∧ m.now - m.startTime > m.maxTimeMs then
    (true, { m with isTimeoutExceeded := true })
  else (false, m)

/-- incrementOperation(): count one operation, report budget exhaustion. -/
def incrementOperation (m : Mgr) : Bool × Mgr :=
  let m := { m with operationCount := m.operationCount + 1 }
  (decide (m.operationCount > m.maxIterations), m)

/-- shouldStop(): `isTimeoutExceeded || checkTimeout() || incrementOperation()`
with JS short-circuit evaluation; a true result also sets the ghost flag. -/
def shouldStop (m : Mgr) : Bool × Mgr :=
  if m.isTimeoutExceeded then (true, { m with tripped := true })
  else
    let r := checkTimeout m
    if r.1 then (true, { r.2 with tripped := true })
    else
      let r2 := incrementOperation r.2
      (r2.1, if r2.1 then { r2.2 with tripped := true } else r2.2)

/-- enterRecursion(): increment the depth, report a depth-budget trip. -/
def enterRecursion (m : Mgr) : Bool × Mgr :=
  let m := { m with currentDepth := m.currentDepth + 1 }
  if m.currentDepth > m.maxRecursionDepth then (true, { m with tripped := true })
  else (false, m)

/-- exitRecursion(): decrement the depth. -/
def exitRecursion (m : Mgr) : Mgr := { m with currentDepth := m.currentDepth - 1 }

/-! ## The legacy count-based deduction engine -/

/-- analyzeNumberConstraint: one deduction step for the clue `k` at
(row, col).  Counts the filled and unknown cells of the clipped window and
applies the saturation rule (all filled already: unknowns become empty) or
the forced-fill rule (every unknown needed: unknowns become filled); a
contradiction is only logged by the source and produces no change. -/
def analyzeNumberConstraint (row col : Nat) (k : Int) (sol : Sol) : Sol × Bool :=
  let rows := sol.length
  let cols := (sol.headD []).length
  let area := get3x3Area row col rows cols
  let unknownCells := area.filter fun p => decide (cellAt sol p.1 p.2 = -1)
  let filledCount := (area.filter fun p => decide (cellAt sol p.1 p.2 = 1)).length
  if (filledCount : Int) = k then
    (unknownCells.foldl (fun s p => setCell s p.1 p.2 0) sol, !unknownCells.isEmpty)
  else if (filledCount : Int) + (unknownCells.length : Int) = k then
    (unknownCells.foldl (fun s p => setCell s p.1 p.2 1) sol, !unknownCells.isEmpty)
  else
    (sol, false)

/-- analyzeConstraints: one full pass, every clued cell in row-major order;
the boolean is true when some cell changed. -/
def analyzeConstraints (g : ClueGrid) (sol : Sol) : Sol × Bool :=
  (List.range g.length).foldl
    (fun acc r =>
      (List.range (g.headD []).length).foldl
        (fun acc c =>
          match clueAt g r c with
          | none => acc
          | some k =>
            let r2 := analyzeNumberConstraint r c k acc.1
            (r2.1, acc.2 || r2.2))
        acc)
    (sol, false)

/-- The while loop of basicConstraintPropagation; the fuel starts at 101
because the source breaks once the iteration counter exceeds 100. -/
def bcpGo (g : ClueGrid) : Nat → Sol → Mgr → Sol × Mgr
  | 0, sol, m => (sol, m)
  | fuel + 1, sol, m =>
    let s := shouldStop m
    if s.1 then (sol, s.2)
    else
      let r := analyzeConstraints g sol
      if r.2 then bcpGo g fuel r.1 s.2 else (r.1, s.2)

/-- basicConstraintPropagation: run deduction passes to a fixpoint, a stop
signal, or the 100-iteration cap. -/
def basicConstraintPropagation (sol : Sol) (g : ClueGrid) (m : Mgr) : Sol × Mgr :=
  bcpGo g 101 sol m

/-- isCompletelyResolved: no cell is unknown. -/
def isCompletelyResolved (sol : Sol) : Bool :=
  sol.all fun row => row.all fun cell => decide (cell ≠ -1)

/-- isConsistentWithConstraints: every clue can still be met, counting
unknown cells as possible fills. -/
def isConsistentWithConstraints (sol : Sol) (g : ClueGrid) : Bool :=
  (List.range g.length).all fun r =>
    (List.range (g.headD []).length).all fun c =>
      match clueAt g r c with
      | none => true
      | some k =>
        let area := get3x3Area r c g.length (g.headD []).length
        let filledCount := (area.filter fun p => decide (cellAt sol p.1 p.2 = 1)).length
        let unknownCount := (area.filter fun p => decide (cellAt sol p.1 p.2 = -1)).length
        !(decide ((filledCount : Int) > k) || decide ((filledCount : Int) + unknownCount < k))

/-- isValidSolution: every clue is met exactly. -/
def isValidSolution (sol : Sol) (g : ClueGrid) : Bool :=
  (List.range g.length).all fun r =>
    (List.range (g.headD []).length).all fun c =>
      match clueAt g r c with
      | none => true
      | some k =>
        let area := get3x3Area r c g.length (g.headD []).length
        let filledCount := (area.filter fun p => decide (cellAt sol p.1 p.2 = 1)).length
        decide ((filledCount : Int) = k)

/-- The row (or column) indices the source visits with
`for (x = max(0, i-1); x <= min(n-1, i+1); x++)`, in the same order. -/
def clippedRange (x n : Nat) : List Nat :=
  (List.range n).filter fun y => decide (x - 1 ≤ y) && decide (y ≤ x + 1)

/-- countAffectingConstraints: how many clued cells have (row, col) in their
window. -/
def countAffectingConstraints (row col : Nat) (g : ClueGrid) : Nat :=
  ((clippedRange row g.length).flatMap fun r =>
    (clippedRange col (g.headD []).length).filter fun c =>
      decide (clueAt g r c ≠ none)).length

/-- findBestUnknownCell: the first unknown cell (row-major) with the
strictly largest number of affecting constraints. -/
def findBestUnknownCell (sol : Sol) (g : ClueGrid) : Option (Nat × Nat) :=
  ((List.range sol.length).flatMap fun r =>
      (List.range (sol.headD []).length).map fun c => (r, c)).foldl
    (fun best p =>
      if cellAt sol p.1 p.2 = -1 then
        let cnt := countAffectingConstraints p.1 p.2 g
        match best with
        | none => some (p, cnt)
        | some b => if cnt > b.2 then some (p, cnt) else some b
      else best)
    none |>.map fun b => b.1

/-- getSmartValueOrder: score fill pressure against satisfied-clue pressure
around (row, col) and order the two candidate values accordingly. -/
def getSmartValueOrder (row col : Nat) (sol : Sol) (g : ClueGrid) : List Int :=
  let scores :=
    (clippedRange row sol.length).foldl
      (fun acc r =>
        (clippedRange col (sol.headD []).length).foldl
          (fun acc c =>
            match clueAt g r c with
            | none => acc
            | some k =>
              let area := get3x3Area r c sol.length (sol.headD []).length
              let others := area.filter fun p => !(decide (p.1 = row) && decide (p.2 = col))
              let filledCount := (others.filter fun p => decide (cellAt sol p.1 p.2 = 1)).length
              let fillSc := if (filledCount : Int) < k then acc.1 + (k - filledCount) else acc.1
              let emptySc := if (filledCount : Int) ≥ k then acc.2 + 2 else acc.2
              (fillSc, emptySc))
          acc)
      ((0 : Int), (0 : Int))
  if scores.1 > scores.2 then [1, 0] else [0, 1]

/-- The result of a run of the legacy backtracking search. -/
structure OldRes where
  res : Option Sol
  mgr : Mgr
deriving Repr

/-- The value loop of backtrackSolve: each iteration writes the candidate
into the working copy, checks consistency, propagates, recurses through the
continuation `k`, and restores the cell on failure (functionally: the next
iteration starts again from `working`). -/
def btTryVals (k : Sol → Mgr → OldRes) (g : ClueGrid) (working : Sol)
    (row col : Nat) : List Int → Mgr → OldRes
  | [], m => ⟨none, m⟩
  | v :: rest, m =>
    let s := shouldStop m
    if s.1 then ⟨none, s.2⟩
    else
      let w1 := setCell working row col v
      if isConsistentWithConstraints w1 g then
        let pr := basicConstraintPropagation w1 g s.2
        let s2 := shouldStop pr.2
        if !s2.1 && isConsistentWithConstraints pr.1 g then
          let r := k pr.1 s2.2
          match r.res with
          | some sol => ⟨some sol, r.mgr⟩
          | none => btTryVals k g working row col rest r.mgr
        else btTryVals k g working row col rest s2.2
      else btTryVals k g working row col rest s.2

/-- backtrackSolve, on explicit fuel (the source recursion terminates
because each level determines one more cell). -/
def backtrackSolveGo (g : ClueGrid) : Nat → Sol → Mgr → OldRes
  | 0, _, m => ⟨none, { m with fuelOut := true }⟩
  | fuel + 1, sol, m =>
    let s := shouldStop m
    if s.1 then ⟨none, s.2⟩
    else
      let e := enterRecursion s.2
      if e.1 then ⟨none, exitRecursion e.2⟩
      else
        let working := sol
        match findBestUnknownCell working g with
        | none =>
          ⟨if isValidSolution working g then some working else none, exitRecursion e.2⟩
        | some rc =>
          let order := getSmartValueOrder rc.1 rc.2 working g
          let r := btTryVals (fun s m => backtrackSolveGo g fuel s m) g working rc.1 rc.2 order e.2
          ⟨r.res, exitRecursion r.mgr⟩

/-- backtrackSolve with enough fuel for any run on its grid. -/
def backtrackSolve (sol : Sol) (g : ClueGrid) (m : Mgr) : OldRes :=
  backtrackSolveGo g (sol.length * (sol.headD []).length + 1) sol m

/-! ## The CSP / AC-3 engine -/

/-- CSPVariable: current value (-1 unassigned, 0 empty, 1 filled) and the
remaining domain (initially the set {0, 1}, kept in insertion order). -/
structure CVar where
  value : Int
  domain : List Int
deriving DecidableEq, Repr

/-- The CSP state: one variable per cell, row-major (`p = r * C + c`). -/
abbrev CState := List CVar

/-- The variable at cell index `p` (always in bounds in a run). -/
def varAt (st : CState) (p : Nat) : CVar := st.getD p ⟨-1, []⟩

def setVarAt (st : CState) (p : Nat) (v : CVar) : CState := st.set p v

/-- The fresh variables of `new MosaicCSP(...)`. -/
def buildVars (R C : Nat) : CState := List.replicate (R * C) ⟨-1, [0, 1]⟩

/-- The row-major index of a cell. -/
def encodePos (C : Nat) (p : Nat × Nat) : Nat := p.1 * C + p.2

/-- CSPConstraint: the clue's cell, its required count, and the scope (the
clipped 3x3 window as cell indices, in window order). -/
structure Constr where
  centerRow : Nat
  centerCol : Nat
  req : Int
  scope : List Nat
deriving DecidableEq, Repr

/-- The constraints of `new MosaicCSP(constraintGrid)`, one per clued cell,
row-major. -/
def buildConstraints (g : ClueGrid) (R C : Nat) : List Constr :=
  (List.range R).flatMap fun r =>
    (List.range C).filterMap fun c =>
      match clueAt g r c with
      | some k => some ⟨r, c, k, (get3x3Area r c R C).map (encodePos C)⟩
      | none => none

def filledCountC (st : CState) (scope : List Nat) : Nat :=
  scope.countP fun p => decide ((varAt st p).value = 1)

def unknownCountC (st : CState) (scope : List Nat) : Nat :=
  scope.countP fun p => decide ((varAt st p).value = -1)

/-- CSPConstraint.isSatisfied(): the partial-assignment consistency test
`filled ≤ required ≤ filled + unknown`, written as the source's two
early-false tests. -/
def isSatisfied (st : CState) (cn : Constr) : Bool :=
  let F := filledCountC st cn.scope
  let U := unknownCountC st cn.scope
  if (F : Int) > cn.req then false
  else if (F : Int) + (U : Int) < cn.req then false
  else true

/-- The temporary assignment of isConsistentAssignment: set xi's then xj's
value (the source saves and restores every scope value around the test; the
functional override needs no restore). -/
def overrideVals (st : CState) (i : Nat) (vi : Int) (j : Nat) (vj : Int) : CState :=
  let st1 := setVarAt st i { varAt st i with value := vi }
  setVarAt st1 j { varAt st1 j with value := vj }

def isConsistentAssignment (st : CState) (i : Nat) (vi : Int) (j : Nat) (vj : Int)
    (cn : Constr) : Bool :=
  isSatisfied (overrideVals st i vi j vj) cn

/-- existsConsistentValue: some value of xj's domain keeps `cn` satisfiable
next to xi = v. -/
def existsConsistentValue (st : CState) (i : Nat) (v : Int) (j : Nat) (cn : Constr) : Bool :=
  (varAt st j).domain.any fun w => isConsistentAssignment st i v j w cn

/-- revise: drop from xi's domain every value with no consistent partner in
xj's domain (an assigned xi's other values are skipped); the boolean reports
whether anything was removed. -/
def revise (st : CState) (i j : Nat) (cn : Constr) : CState × Bool :=
  let xi := varAt st i
  let keep : Int → Bool := fun v =>
    (decide (xi.value ≠ -1) && decide (xi.value ≠ v)) || existsConsistentValue st i v j cn
  let newDom := xi.domain.filter keep
  (setVarAt st i { xi with domain := newDom }, decide (newDom.length ≠ xi.domain.length))

/-- An arc: source variable, target variable, owning constraint. -/
abbrev Arc := Nat × Nat × Constr

/-- CSPConstraint.getArcs(): both directions of every pair of scope cells,
in the source's nested-loop order. -/
def getArcsAux (cn : Constr) : List Nat → List Arc
  | [] => []
  | x :: rest => (rest.flatMap fun y => [(x, y, cn), (y, x, cn)]) ++ getArcsAux cn rest

def getArcs (cn : Constr) : List Arc := getArcsAux cn cn.scope

def getAllArcs (cs : List Constr) : List Arc := cs.flatMap getArcs

/-- The constraints whose scope contains cell `i` (variable.constraints),
in constraint-creation order. -/
def constraintsContaining (cs : List Constr) (i : Nat) : List Constr :=
  cs.filter fun cn => cn.scope.contains i

/-- The arcs re-queued after xi's domain shrank while processing (xi, xj):
for every constraint touching xi, every third variable xk gets (xk, xi). -/
def requeueArcs (cs : List Constr) (i j : Nat) : List Arc :=
  (constraintsContaining cs i).flatMap fun nc =>
    (nc.scope.filter fun k => decide (k ≠ i) && decide (k ≠ j)).map fun k => (k, i, nc)

/-- What ac3Algorithm produces: the final state and manager, the returned
boolean (`iterationCount < 1000`, or false from the emptied-domain exit),
the number of arcs processed, and whether the emptied-domain exit was taken. -/
structure Ac3Res where
  st : CState
  mgr : Mgr
  ok : Bool
  iter : Nat
  emptied : Bool
deriving Repr

/-- The while loop of ac3Algorithm, on fuel `1000 - iterationCount`; the cap
exit marks the ghost `capEver`. -/
def ac3Loop (cs : List Constr) : Nat → CState → List Arc → Mgr → Ac3Res
  | 0, st, _, m => ⟨st, { m with capEver := true }, false, 1000, false⟩
  | fuel + 1, st, [], m => ⟨st, m, true, 999 - fuel, false⟩
  | fuel + 1, st, (i, j, cn) :: rest, m =>
    let s := shouldStop m
    if s.1 then ⟨st, s.2, true, 999 - fuel, false⟩
    else
      let rv := revise st i j cn
      if rv.2 then
        if (varAt rv.1 i).domain.isEmpty then ⟨rv.1, s.2, false, 1000 - fuel, true⟩
        else ac3Loop cs fuel rv.1 (rest ++ requeueArcs cs i j) s.2
      else ac3Loop cs fuel rv.1 rest s.2

/-- ac3Algorithm: process the queue of all arcs, re-queueing on revision. -/
def ac3Algorithm (cs : List Constr) (st : CState) (m : Mgr) : Ac3Res :=
  ac3Loop cs 1000 st (getAllArcs cs) m

/-- MosaicCSP.isComplete(): every variable assigned. -/
def isComplete (st : CState) : Bool := st.all fun v => decide (v.value ≠ -1)

/-- MosaicCSP.toSolutionArray(). -/
def toSolutionArray (st : CState) (R C : Nat) : Sol :=
  (List.range R).map fun r => (List.range C).map fun c => (varAt st (r * C + c)).value

/-- The fold of getMostConstrainedVariable: best-so-far as (cell, domain
size, constraint count), replaced on a strictly smaller domain or an equal
domain with strictly more constraints. -/
def gmcvFold (cs : List Constr) (st : CState) :
    List Nat → Option (Nat × Nat × Nat) → Option (Nat × Nat × Nat)
  | [], best => best
  | p :: rest, best =>
    let xv := varAt st p
    if xv.value = -1 then
      let ds := xv.domain.length
      let cc := (constraintsContaining cs p).length
      match best with
      | none => gmcvFold cs st rest (some (p, ds, cc))
      | some b =>
        if ds < b.2.1 ∨ (ds = b.2.1 ∧ cc > b.2.2) then gmcvFold cs st rest (some (p, ds, cc))
        else gmcvFold cs st rest (some b)
    else gmcvFold cs st rest best

def getMostConstrainedVariable (cs : List Constr) (st : CState) : Option Nat :=
  (gmcvFold cs st (List.range st.length) none).map fun b => b.1

/-- getOrderedValues: the source sorts the domain with a comparator that
puts 0 (empty) before 1 (filled) and leaves every other pair in place; on
the domains that occur (subsequences of [0, 1]) this stable sort is exactly
the following split. -/
def getOrderedValues (dom : List Int) : List Int :=
  dom.filter (fun v => decide (v = 0)) ++ dom.filter (fun v => decide (v ≠ 0))

/-- CSPVariable.assign(value): refuse a value outside the domain, else set
the value and collapse the domain to it. -/
def assignVar (st : CState) (p : Nat) (v : Int) : Option CState :=
  if v ∈ (varAt st p).domain then some (setVarAt st p ⟨v, [v]⟩) else none

/-- The result of macBacktrack: the solution (none on failure), the CSP
state as the mutable object leaves it, and the manager. -/
structure BtRes where
  res : Option Sol
  st : CState
  mgr : Mgr
deriving Repr

/-- The value loop of macBacktrack: save the state, assign, re-run AC-3,
recurse through `k`, and restore the saved state on failure (functionally:
every iteration starts from `st0`, which is also returned on exhaustion). -/
def tryVals (k : CState → Mgr → BtRes) (cs : List Constr) (st0 : CState) (p : Nat) :
    List Int → Mgr → BtRes
  | [], m => ⟨none, st0, m⟩
  | v :: rest, m =>
    let s := shouldStop m
    if s.1 then ⟨none, st0, s.2⟩
    else
      match assignVar st0 p v with
      | none => tryVals k cs st0 p rest s.2
      | some st1 =>
        let a := ac3Algorithm cs st1 s.2
        if a.ok then
          let b := k a.st a.mgr
          match b.res with
          | some sol => ⟨some sol, b.st, b.mgr⟩
          | none => tryVals k cs st0 p rest b.mgr
        else tryVals k cs st0 p rest a.mgr

/-- macBacktrack on explicit fuel (the source recursion terminates because
every recursive call has one more assigned variable). -/
def macBacktrackGo (R C : Nat) (cs : List Constr) : Nat → CState → Mgr → BtRes
  | 0, st, m => ⟨none, st, { m with fuelOut := true }⟩
  | fuel + 1, st, m =>
    let s := shouldStop m
    if s.1 then ⟨none, st, s.2⟩
    else
      let e := enterRecursion s.2
      if e.1 then ⟨none, st, exitRecursion e.2⟩
      else if isComplete st then ⟨some (toSolutionArray st R C), st, exitRecursion e.2⟩
      else
        match getMostConstrainedVariable cs st with
        | none => ⟨none, st, exitRecursion e.2⟩
        | some p =>
          let vals := getOrderedValues (varAt st p).domain
          let b := tryVals (macBacktrackGo R C cs fuel) cs st p vals e.2
          ⟨b.res, b.st, exitRecursion b.mgr⟩

/-- macBacktrackSearch: AC-3 preprocessing, then the MAC backtracking. -/
def macBacktrackSearch (R C : Nat) (cs : List Constr) (fuel : Nat) (st : CState)
    (m : Mgr) : BtRes :=
  let a := ac3Algorithm cs st m
  if a.ok then macBacktrackGo R C cs fuel a.st a.mgr
  else ⟨none, a.st, a.mgr⟩

/-- The result mapping `cell === -1 ? 0 : cell`. -/
def unknownToEmpty (sol : Sol) : Sol :=
  sol.map fun row => row.map fun cell => if cell = -1 then 0 else cell

/-- solveMosaicCSP: build the CSP, search, and return either the found
solution or the partial assignment, unknowns defaulted to empty. -/
def solveMosaicCSP (g : ClueGrid) (m : Mgr) : Sol × Mgr :=
  let R := g.length
  let C := (g.headD []).length
  let cs := buildConstraints g R C
  let b := macBacktrackSearch R C cs (R * C + 1) (buildVars R C) m
  match b.res with
  | some sol => (unknownToEmpty sol, b.mgr)
  | none => (unknownToEmpty (toSolutionArray b.st R C), b.mgr)

/-- solveMosaicAlgorithm: reset the safety manager; in step mode hand back
the untouched all-unknown grid (the step controller takes over), otherwise
run the CSP solver.  `stepMode` stands for the JS `stepByStep && puzzleData`. -/
def solveMosaicAlgorithm (g : ClueGrid) (stepMode : Bool) (m : Mgr) : Sol × Mgr :=
  let m := m.reset
  if stepMode then
    ((List.range g.length).map fun _ =>
      (List.range (g.headD []).length).map fun _ => (-1 : Int), m)
  else solveMosaicCSP g m

/-! ## Statement-level notions -/

/-- Every row has the length of the first row (the rectangularity the JS
code assumes of its 2D arrays). -/
abbrev rowsRect {α : Type} (l : List (List α)) : Prop :=
  ∀ row ∈ l, row.length = (l.headD []).length

/-- Every cell carries a filled/empty decision. -/
abbrev cells01 (sol : Sol) : Prop := ∀ row ∈ sol, ∀ v ∈ row, v = 0 ∨ v = 1

/-- Some filled/empty grid of the clue grid's shape meets every clue
exactly (the source's own isValidSolution is the meaning of "meets"). -/
def Satisfiable (g : ClueGrid) : Prop :=
  ∃ sol : Sol, sol.length = g.length ∧ (∀ row ∈ sol, row.length = (g.headD []).length) ∧
    cells01 sol ∧ isValidSolution sol g = true

/-- The clipped window of the clue at (row, col) as the deduction pass
computes it. -/
def scopeCells (sol : Sol) (row col : Nat) : List (Nat × Nat) :=
  get3x3Area row col sol.length (sol.headD []).length

/-- The deduction pass's filled count F over the clue's window. -/
def scopeFilled (sol : Sol) (row col : Nat) : Nat :=
  ((scopeCells sol row col).filter fun p => decide (cellAt sol p.1 p.2 = 1)).length

/-- The deduction pass's unknown count U over the clue's window. -/
def scopeUnknown (sol : Sol) (row col : Nat) : Nat :=
  ((scopeCells sol row col).filter fun p => decide (cellAt sol p.1 p.2 = -1)).length

/-- A concrete manager in its configured defaults (the wall clock frozen at
an arbitrary instant, here 5). -/
def defaultMgr : Mgr :=
  { startTime := 0, maxTimeMs := 30000, maxRecursionDepth := 100,
    maxIterations := 10000, operationCount := 0, currentDepth := 0,
    isTimeoutExceeded := false, now := 5, tripped := false, capEver := false,
    fuelOut := false }

/-! ### Proof-level invariants of the CSP engine -/

/-- Well-formedness of one CSP variable: the value is unknown, empty or
filled; the domain holds only empty/filled; an assigned variable's domain
holds only its value. -/
abbrev WFVar (x : CVar) : Prop :=
  (x.value = -1 ∨ x.value = 0 ∨ x.value = 1) ∧
  (∀ v ∈ x.domain, v = 0 ∨ v = 1) ∧
  (x.value ≠ -1 → ∀ v ∈ x.domain, v = x.value)

/-- Well-formedness of a CSP state (the default variable of an out-of-range
index is well-formed too). -/
abbrev WFS (st : CState) : Prop := ∀ p, WFVar (varAt st p)

/-- Every cell of a solution array is unknown, empty or filled. -/
abbrev WFSol (sol : Sol) : Prop := ∀ row ∈ sol, ∀ v ∈ row, v = -1 ∨ v = 0 ∨ v = 1

/-- The state agrees with the total assignment `f` (flat, row-major): every
assigned variable carries its `f`-value and every domain still contains its
`f`-value. -/
abbrev Respects (f : Nat → Int) (st : CState) : Prop :=
  ∀ p < st.length,
    ((varAt st p).value ≠ -1 → (varAt st p).value = f p) ∧ f p ∈ (varAt st p).domain

/-- A total filled/empty assignment of the first N cells. -/
abbrev SolFun01 (f : Nat → Int) (N : Nat) : Prop := ∀ p < N, f p = 0 ∨ f p = 1

/-- `f` meets every constraint exactly. -/
abbrev SatisfiesAll (f : Nat → Int) (cs : List Constr) : Prop :=
  ∀ cn ∈ cs, (cn.scope.countP (fun p => decide (f p = 1)) : Int) = cn.req

/-- Every scope cell index is below N. -/
abbrev ScopeBounded (cs : List Constr) (N : Nat) : Prop :=
  ∀ cn ∈ cs, ∀ p ∈ cn.scope, p < N

/-- Every scope has at least two cells (true whenever the grid has at least
two cells). -/
abbrev ScopesBig (cs : List Constr) : Prop := ∀ cn ∈ cs, 2 ≤ cn.scope.length

/-- Every variable of the state is assigned. -/
abbrev AllAssigned (st : CState) : Prop := ∀ p < st.length, (varAt st p).value ≠ -1

/-- Every constraint accepts the current state. -/
abbrev AllSat (cs : List Constr) (st : CState) : Prop :=
  ∀ cn ∈ cs, isSatisfied st cn = true

/-- Every variable's domain is nonempty. -/
abbrev DomNE (st : CState) : Prop := ∀ p < st.length, (varAt st p).domain ≠ []

/-- The number of unassigned variables. -/
def unCount (st : CState) : Nat := st.countP fun x => decide (x.value = -1)

/-- Ghost monotonicity: the trip and cap recorders only ever go up. -/
abbrev MgrLe (m m2 : Mgr) : Prop :=
  (m.tripped = true → m2.tripped = true) ∧ (m.capEver = true → m2.capEver = true)

/-! # Theorems -/

/-! ## List helpers -/

theorem getD_set_self {α : Type} (l : List α) (i : Nat) (v d : α) (h : i < l.length) :
    (l.set i v).getD i d = v := by
  induction l generalizing i with
  | nil => simp at h
  | cons a t ih =>
    cases i with
    | zero => rfl
    | succ n => simpa using ih n (by simpa using h)

theorem getD_set_ne {α : Type} (l : List α) {i j : Nat} (v d : α) (h : i ≠ j) :
    (l.set i v).getD j d = l.getD j d := by
  induction l generalizing i j with
  | nil => rfl
  | cons a t ih =>
    cases i with
    | zero => cases j with
      | zero => exact absurd rfl h
      | succ n => rfl
    | succ n => cases j with
      | zero => rfl
      | succ k => simpa using ih (fun hh => h (by simpa using hh))

theorem countP_mono_of_imp {α : Type} (p q : α → Bool) (l : List α)
    (h : ∀ a ∈ l, p a = true → q a = true) : l.countP p ≤ l.countP q := by
  induction l with
  | nil => simp
  | cons a t ih =>
    have ht := ih fun a ha => h a (List.mem_cons_of_mem _ ha)
    by_cases hp : p a = true
    · have hq := h a (List.mem_cons_self a t) hp
      simp [List.countP_cons, hp, hq]
      omega
    · simp only [List.countP_cons]
      rcases Bool.eq_false_or_eq_true (q a) with hq | hq <;> simp [hp, hq] <;> omega

theorem countP_le_add_of_imp {α : Type} (p q r : α → Bool) (l : List α)
    (h : ∀ a ∈ l, p a = true → q a = true ∨ r a = true) :
    l.countP p ≤ l.countP q + l.countP r := by
  induction l with
  | nil => simp
  | cons a t ih =>
    have ht := ih fun a ha => h a (List.mem_cons_of_mem _ ha)
    by_cases hp : p a = true
    · rcases h a (List.mem_cons_self a t) hp with hq | hr
      · simp [List.countP_cons, hp, hq]; omega
      · simp [List.countP_cons, hp, hr]; omega
    · simp only [List.countP_cons, hp]
      rcases Bool.eq_false_or_eq_true (q a) with hq | hq <;>
        rcases Bool.eq_false_or_eq_true (r a) with hr | hr <;>
        simp [hq, hr] <;> omega

theorem countP_congr_of_eq {α : Type} (p q : α → Bool) (l : List α)
    (h : ∀ a ∈ l, p a = q a) : l.countP p = l.countP q := by
  induction l with
  | nil => rfl
  | cons a t ih =>
    have ht := ih fun a ha => h a (List.mem_cons_of_mem _ ha)
    have ha := h a (List.mem_cons_self a t)
    simp [List.countP_cons, ha, ht]

theorem length_filterMap_eq_countP {α β : Type} (f : α → Option β) (l : List α) :
    (l.filterMap f).length = l.countP fun a => (f a).isSome := by
  induction l with
  | nil => rfl
  | cons a t ih =>
    cases hfa : f a <;> simp [List.filterMap_cons, hfa, List.countP_cons, ih]

/-! ## Claim C8: the resource governor -/

/-- Claim C8: shouldStop() is true exactly when the sticky timeout flag is
set, or the elapsed wall-clock time exceeds the time budget, or the
(just advanced) operation count exceeds the maximum; the flag is sticky: no
governor operation but reset() clears it, and once it is set shouldStop()
answers true for every clock value without re-measuring time. -/
theorem claim_C8 (m : Mgr) (h0 : m.startTime ≠ 0) :
    ((shouldStop m).1 = true ↔
      (m.isTimeoutExceeded = true ∨ m.now - m.startTime > m.maxTimeMs ∨
        (shouldStop m).2.operationCount > m.maxIterations)) ∧
    (m.isTimeoutExceeded = true →
      ((shouldStop m).2 = { m with tripped := true } ∧
       (∀ t : Int, (shouldStop { m with now := t }).1 = true) ∧
       (checkTimeout m).2.isTimeoutExceeded = true ∧
       (incrementOperation m).2.isTimeoutExceeded = true ∧
       (enterRecursion m).2.isTimeoutExceeded = true ∧
       (exitRecursion m).isTimeoutExceeded = true ∧
       (shouldStop m).2.isTimeoutExceeded = true)) ∧
    (m.reset.isTimeoutExceeded = false) := by
  refine ⟨?_, ?_, rfl⟩
  · by_cases hf : m.isTimeoutExceeded = true
    · simp [shouldStop, hf]
    · by_cases ht : m.now - m.startTime > m.maxTimeMs
      · simp [shouldStop, checkTimeout, hf, ht, h0]
      · simp only [shouldStop, checkTimeout, incrementOperation, hf, ht, h0]
        simp only [ne_eq, h0, not_false_eq_true, true_and, if_neg ht]
        split_ifs <;> simp_all
  · intro hf
    refine ⟨by simp [shouldStop, hf], fun t => by simp [shouldStop, hf], ?_,
      by simp [incrementOperation, hf], ?_, by simp [exitRecursion, hf],
      by simp [shouldStop, hf]⟩
    · simp only [checkTimeout]
      split_ifs <;> simp [hf]
    · simp only [enterRecursion]
      split_ifs <;> simp [hf]

/-- Witness: claim C8 at the default manager after reset (its start time is
the nonzero clock value). -/
theorem claim_C8_witness :
    (shouldStop defaultMgr.reset).1 = true ↔
      (defaultMgr.reset.isTimeoutExceeded = true ∨
        defaultMgr.reset.now - defaultMgr.reset.startTime > defaultMgr.reset.maxTimeMs ∨
        (shouldStop defaultMgr.reset).2.operationCount > defaultMgr.reset.maxIterations) :=
  (claim_C8 defaultMgr.reset (by decide)).1

/-! ## Cell update lemmas for the legacy engine -/

theorem set_of_length_le {α : Type} (l : List α) (i : Nat) (v : α) (h : l.length ≤ i) :
    l.set i v = l := by
  induction l generalizing i with
  | nil => rfl
  | cons a t ih =>
    cases i with
    | zero => simp at h
    | succ n => simpa using ih n (by simpa using h)

theorem getD_mem {α : Type} (l : List α) (i : Nat) (d : α) (h : i < l.length) :
    l.getD i d ∈ l := by
  induction l generalizing i with
  | nil => simp at h
  | cons a t ih =>
    cases i with
    | zero => exact List.mem_cons_self _ _
    | succ n => exact List.mem_cons_of_mem _ (ih n (by simpa using h))

theorem length_setCell (s : Sol) (a b : Nat) (v : Int) :
    (setCell s a b v).length = s.length := by
  simp [setCell]

theorem rowLen_setCell (s : Sol) (a b r : Nat) (v : Int) :
    ((setCell s a b v).getD r []).length = (s.getD r []).length := by
  by_cases hr : r = a
  · subst hr
    by_cases ha : r < s.length
    · rw [setCell, getD_set_self _ _ _ _ ha]
      simp
    · rw [setCell, set_of_length_le _ _ _ (by omega)]
  · rw [setCell, getD_set_ne _ _ _ (fun h => hr h.symm)]

theorem cellAt_setCell_eq (s : Sol) (a b : Nat) (v : Int) (ha : a < s.length)
    (hb : b < (s.getD a []).length) : cellAt (setCell s a b v) a b = v := by
  rw [cellAt, setCell, getD_set_self _ _ _ _ ha, getD_set_self _ _ _ _ hb]

theorem cellAt_setCell_ne (s : Sol) {a b x y : Nat} (v : Int) (h : ¬(x = a ∧ y = b)) :
    cellAt (setCell s a b v) x y = cellAt s x y := by
  by_cases hx : x = a
  · subst hx
    have hy : y ≠ b := fun hy => h ⟨rfl, hy⟩
    by_cases ha : x < s.length
    · rw [cellAt, setCell, getD_set_self _ _ _ _ ha, cellAt, getD_set_ne _ _ _ (fun hh => hy hh.symm)]
    · rw [setCell, set_of_length_le _ _ _ (by omega)]
  · rw [cellAt, setCell, getD_set_ne _ _ _ (fun hh => hx hh.symm)]
    rfl

/-- Writing a constant `v` into every cell of a list of positions: a cell
not in the list is untouched. -/
theorem cellAt_foldl_setCell_not_mem (v : Int) (us : List (Nat × Nat)) (s : Sol)
    (x y : Nat) (h : ∀ p ∈ us, ¬(x = p.1 ∧ y = p.2)) :
    cellAt (us.foldl (fun s p => setCell s p.1 p.2 v) s) x y = cellAt s x y := by
  induction us generalizing s with
  | nil => rfl
  | cons q rest ih =>
    rw [List.foldl_cons, ih _ fun p hp => h p (List.mem_cons_of_mem _ hp),
      cellAt_setCell_ne _ _ (h q (List.mem_cons_self _ _))]

/-- Writing a constant `v` into every cell of a list of in-bounds positions:
a cell in the list ends with value `v`. -/
theorem cellAt_foldl_setCell_mem (v : Int) (us : List (Nat × Nat)) (s : Sol)
    (p0 : Nat × Nat) (hmem : p0 ∈ us)
    (hb : ∀ p ∈ us, p.1 < s.length ∧ p.2 < (s.getD p.1 []).length) :
    cellAt (us.foldl (fun s p => setCell s p.1 p.2 v) s) p0.1 p0.2 = v := by
  induction us generalizing s with
  | nil => simp at hmem
  | cons q rest ih =>
    rw [List.foldl_cons]
    have hb' : ∀ p ∈ rest, p.1 < (setCell s q.1 q.2 v).length ∧
        p.2 < ((setCell s q.1 q.2 v).getD p.1 []).length := by
      intro p hp
      have := hb p (List.mem_cons_of_mem _ hp)
      rw [length_setCell, rowLen_setCell]
      exact this
    by_cases hp : p0 ∈ rest
    · exact ih (setCell s q.1 q.2 v) hp hb'
    · have hq : p0 = q := by
        rcases List.mem_cons.mp hmem with h | h
        · exact h
        · exact absurd h hp
      subst hq
      rw [cellAt_foldl_setCell_not_mem]
      · exact cellAt_setCell_eq _ _ _ _ (hb p0 (List.mem_cons_self _ _)).1
          (hb p0 (List.mem_cons_self _ _)).2
      · intro p hp2 hc
        exact hp (by
          have : p0 = p := Prod.ext hc.1 hc.2
          simpa [this] using hp2)

/-- Positions of the clipped window are in bounds. -/
theorem mem_get3x3Area_bounds {row col rows cols : Nat} {p : Nat × Nat}
    (h : p ∈ get3x3Area row col rows cols) : p.1 < rows ∧ p.2 < cols := by
  rcases List.mem_filterMap.mp h with ⟨d, _, hd⟩
  simp only at hd
  split at hd
  · rename_i hcond
    cases hd
    obtain ⟨h1, h2, h3, h4⟩ := hcond
    exact ⟨by omega, by omega⟩
  · cases hd

/-- The window contains its center. -/
theorem center_mem_get3x3Area {row col rows cols : Nat} (h1 : row < rows) (h2 : col < cols) :
    (row, col) ∈ get3x3Area row col rows cols := by
  refine List.mem_filterMap.mpr ⟨(0, 0), by simp [directions3x3], ?_⟩
  dsimp only
  rw [if_pos (by refine ⟨by omega, by omega, by omega, by omega⟩)]
  congr 1

/-! ## Claim C3: the two deduction rules -/

theorem unknown_bounds (sol : Sol) (row col : Nat) (hrect : rowsRect sol) :
    ∀ p ∈ (scopeCells sol row col).filter fun p => decide (cellAt sol p.1 p.2 = -1),
      p.1 < sol.length ∧ p.2 < (sol.getD p.1 []).length := by
  intro p hp
  have hmem := (List.mem_filter.mp hp).1
  have hb := mem_get3x3Area_bounds hmem
  refine ⟨hb.1, ?_⟩
  rw [hrect (sol.getD p.1 []) (getD_mem _ _ _ hb.1)]
  exact hb.2

/-- The branch the pass takes under the saturation condition F = k. -/
theorem anc_eq_of_sat (sol : Sol) (row col : Nat) (k : Int)
    (h : (scopeFilled sol row col : Int) = k) :
    analyzeNumberConstraint row col k sol =
      (((scopeCells sol row col).filter fun p => decide (cellAt sol p.1 p.2 = -1)).foldl
        (fun s p => setCell s p.1 p.2 0) sol,
       !(((scopeCells sol row col).filter fun p =>
          decide (cellAt sol p.1 p.2 = -1)).isEmpty)) := by
  simp only [scopeFilled, scopeUnknown, scopeCells] at h ⊢
  simp only [analyzeNumberConstraint]
  rw [if_pos h]

/-- The branch the pass takes under the forced-fill condition F + U = k,
F ≠ k. -/
theorem anc_eq_of_fill (sol : Sol) (row col : Nat) (k : Int)
    (hne : ¬((scopeFilled sol row col : Int) = k))
    (h : (scopeFilled sol row col : Int) + scopeUnknown sol row col = k) :
    analyzeNumberConstraint row col k sol =
      (((scopeCells sol row col).filter fun p => decide (cellAt sol p.1 p.2 = -1)).foldl
        (fun s p => setCell s p.1 p.2 1) sol,
       !(((scopeCells sol row col).filter fun p =>
          decide (cellAt sol p.1 p.2 = -1)).isEmpty)) := by
  simp only [scopeFilled, scopeUnknown, scopeCells] at hne h ⊢
  simp only [analyzeNumberConstraint]
  rw [if_neg hne, if_pos (by exact_mod_cast h)]

/-- The no-action branch: neither rule applies. -/
theorem anc_eq_of_none (sol : Sol) (row col : Nat) (k : Int)
    (hne : ¬((scopeFilled sol row col : Int) = k))
    (hne2 : ¬((scopeFilled sol row col : Int) + scopeUnknown sol row col = k)) :
    analyzeNumberConstraint row col k sol = (sol, false) := by
  simp only [scopeFilled, scopeUnknown, scopeCells] at hne hne2 ⊢
  simp only [analyzeNumberConstraint]
  rw [if_neg hne, if_neg (by exact_mod_cast hne2)]

/-- Claim C3: one deduction step over the clipped window with filled count F
and unknown count U against requirement k: if F = k and U > 0 every unknown
window cell becomes Empty; if F + U = k and U > 0 every unknown window cell
becomes Filled; cells already decided are not changed. -/
theorem claim_C3 (sol : Sol) (row col : Nat) (k : Int) (hrect : rowsRect sol) :
    (((scopeFilled sol row col : Int) = k → 0 < scopeUnknown sol row col →
      ∀ p ∈ scopeCells sol row col, cellAt sol p.1 p.2 = -1 →
        cellAt (analyzeNumberConstraint row col k sol).1 p.1 p.2 = 0)) ∧
    (((scopeFilled sol row col : Int) + scopeUnknown sol row col = k →
      0 < scopeUnknown sol row col →
      ∀ p ∈ scopeCells sol row col, cellAt sol p.1 p.2 = -1 →
        cellAt (analyzeNumberConstraint row col k sol).1 p.1 p.2 = 1)) ∧
    (∀ p ∈ scopeCells sol row col, cellAt sol p.1 p.2 ≠ -1 →
      cellAt (analyzeNumberConstraint row col k sol).1 p.1 p.2 = cellAt sol p.1 p.2) := by
  have hbounds := unknown_bounds sol row col hrect
  refine ⟨?_, ?_, ?_⟩
  · intro h1 _ p hp hcell
    rw [anc_eq_of_sat sol row col k h1]
    exact cellAt_foldl_setCell_mem 0 _ sol p
      (List.mem_filter.mpr ⟨hp, by simpa using hcell⟩) hbounds
  · intro h1 h2 p hp hcell
    have hne : ¬((scopeFilled sol row col : Int) = k) := by omega
    rw [anc_eq_of_fill sol row col k hne h1]
    exact cellAt_foldl_setCell_mem 1 _ sol p
      (List.mem_filter.mpr ⟨hp, by simpa using hcell⟩) hbounds
  · intro p hp hcell
    have hnm : ∀ q ∈ (scopeCells sol row col).filter
        fun q => decide (cellAt sol q.1 q.2 = -1), ¬(p.1 = q.1 ∧ p.2 = q.2) := by
      intro q hq hc
      have hq2 := (List.mem_filter.mp hq).2
      have : p = q := Prod.ext hc.1 hc.2
      rw [this] at hcell
      simp at hq2
      exact hcell hq2
    by_cases h1 : (scopeFilled sol row col : Int) = k
    · rw [anc_eq_of_sat sol row col k h1]
      exact cellAt_foldl_setCell_not_mem 0 _ sol p.1 p.2 hnm
    · by_cases h2 : (scopeFilled sol row col : Int) + scopeUnknown sol row col = k
      · rw [anc_eq_of_fill sol row col k h1 h2]
        exact cellAt_foldl_setCell_not_mem 1 _ sol p.1 p.2 hnm
      · rw [anc_eq_of_none sol row col k h1 h2]

/-- Witness for claim C3: on the 1x2 row [-1, 1] with clue 1 at (0, 0), the
window is saturated (F = 1 = k, U = 1 > 0) and the pass empties the unknown
cell (0, 0). -/
theorem claim_C3_witness :
    cellAt (analyzeNumberConstraint 0 0 1 [[-1, 1]]).1 0 0 = 0 :=
  (claim_C3 [[-1, 1]] 0 0 1 (by decide)).1 (by decide) (by decide) (0, 0)
    (by decide) (by decide)

/-! ## Claim C4: contradictions in the deduction pass -/

/-- Claim C4 amended: when a constraint is contradicted (F > k, or
F + U < k) the deduction pass does not signal anything: it leaves the grid
untouched and reports no change, exactly as on an already-saturated
fixpoint; inconsistency is only observed by the separate consistency
checks of the search. -/
theorem claim_C4_amended (sol : Sol) (row col : Nat) (k : Int)
    (h : (scopeFilled sol row col : Int) > k ∨
      (scopeFilled sol row col : Int) + scopeUnknown sol row col < k) :
    analyzeNumberConstraint row col k sol = (sol, false) := by
  have h1 : ¬((scopeFilled sol row col : Int) = k) := by omega
  have h2 : ¬((scopeFilled sol row col : Int) + scopeUnknown sol row col = k) := by omega
  exact anc_eq_of_none sol row col k h1 h2

/-- Witness for the amended C4: clue 0 at (0, 0) of the already-filled 1x1
grid (F = 1 > 0): the pass returns the untouched grid and no change flag. -/
theorem claim_C4_amended_witness :
    analyzeNumberConstraint 0 0 0 [[1]] = ([[1]], false) :=
  claim_C4_amended [[1]] 0 0 0 (by decide)

/-- Counterexample for claim C4 as stated: on the grid [[1]] with clue 0 at
(0, 0) the scope has F = 1 > 0 = k, yet the pass and the full propagation
return plain no-change results carrying no inconsistency signal: the same
values a pass over an already-consistent fixpoint returns. -/
theorem claim_C4_cex :
    (scopeFilled [[1]] 0 0 : Int) > 0 ∧
    analyzeNumberConstraint 0 0 0 [[1]] = ([[1]], false) ∧
    analyzeConstraints [[some 0]] [[1]] = ([[1]], false) ∧
    (basicConstraintPropagation [[1]] [[some 0]] defaultMgr.reset).1 = [[1]] ∧
    analyzeNumberConstraint 0 0 0 [[0]] = ([[0]], false) := by
  refine ⟨by decide, by decide, by decide, by decide, by decide⟩

/-! ## Claim C9: monotonicity of deduction -/

/-- A deduction step never changes a decided cell. -/
theorem anc_preserves (row col : Nat) (k : Int) (sol : Sol) (x y : Nat)
    (h : cellAt sol x y ≠ -1) :
    cellAt (analyzeNumberConstraint row col k sol).1 x y = cellAt sol x y := by
  have hnm : ∀ q ∈ (scopeCells sol row col).filter
      fun q => decide (cellAt sol q.1 q.2 = -1), ¬(x = q.1 ∧ y = q.2) := by
    intro q hq hc
    have hq2 := (List.mem_filter.mp hq).2
    simp at hq2
    rw [hc.1, hc.2] at h
    exact h hq2
  by_cases h1 : (scopeFilled sol row col : Int) = k
  · rw [anc_eq_of_sat sol row col k h1]
    exact cellAt_foldl_setCell_not_mem 0 _ sol x y hnm
  · by_cases h2 : (scopeFilled sol row col : Int) + scopeUnknown sol row col = k
    · rw [anc_eq_of_fill sol row col k h1 h2]
      exact cellAt_foldl_setCell_not_mem 1 _ sol x y hnm
    · rw [anc_eq_of_none sol row col k h1 h2]

/-- Folding steps that preserve decided cells preserves decided cells. -/
theorem foldl_cellPreserves {β : Type} (f : Sol × Bool → β → Sol × Bool)
    (hf : ∀ acc b x y, cellAt acc.1 x y ≠ -1 → cellAt (f acc b).1 x y = cellAt acc.1 x y)
    (l : List β) (acc : Sol × Bool) (x y : Nat) (h : cellAt acc.1 x y ≠ -1) :
    cellAt (l.foldl f acc).1 x y = cellAt acc.1 x y := by
  induction l generalizing acc with
  | nil => rfl
  | cons b t ih =>
    rw [List.foldl_cons]
    have h1 := hf acc b x y h
    rw [ih (f acc b) (by rw [h1]; exact h)]
    exact h1

/-- A full deduction pass never changes a decided cell. -/
theorem analyzeConstraints_preserves (g : ClueGrid) (sol : Sol) (x y : Nat)
    (h : cellAt sol x y ≠ -1) :
    cellAt (analyzeConstraints g sol).1 x y = cellAt sol x y := by
  unfold analyzeConstraints
  refine foldl_cellPreserves _ ?_ _ (sol, false) x y h
  intro acc r x y hxy
  refine foldl_cellPreserves _ ?_ _ acc x y hxy
  intro acc2 c x y hxy2
  cases hcl : clueAt g r c with
  | none => simp [hcl]
  | some k => simpa [hcl] using anc_preserves r c k acc2.1 x y hxy2

theorem bcpGo_preserves (g : ClueGrid) : ∀ (fuel : Nat) (sol : Sol) (m : Mgr) (x y : Nat),
    cellAt sol x y ≠ -1 → cellAt (bcpGo g fuel sol m).1 x y = cellAt sol x y := by
  intro fuel
  induction fuel with
  | zero => intro sol m x y _; rfl
  | succ fuel ih =>
    intro sol m x y h
    simp only [bcpGo]
    by_cases hs : (shouldStop m).1 = true
    · simp [hs]
    · simp only [hs, Bool.false_eq_true, if_false]
      have h1 := analyzeConstraints_preserves g sol x y h
      by_cases hc : (analyzeConstraints g sol).2 = true
      · simp only [hc, if_true]
        rw [ih (analyzeConstraints g sol).1 (shouldStop m).2 x y (by rw [h1]; exact h)]
        exact h1
      · simp only [hc, Bool.false_eq_true, if_false]
        exact h1

/-- Claim C9: a cell decided by the deduction engine (outside search) is
never reverted by a later deduction pass: one pass writes only to currently
unknown cells, and the fixpoint loop of basicConstraintPropagation keeps
every decided cell at its value. -/
theorem claim_C9 (g : ClueGrid) (sol : Sol) (m : Mgr) (x y : Nat)
    (h : cellAt sol x y ≠ -1) :
    cellAt (analyzeConstraints g sol).1 x y = cellAt sol x y ∧
    cellAt (basicConstraintPropagation sol g m).1 x y = cellAt sol x y :=
  ⟨analyzeConstraints_preserves g sol x y h, bcpGo_preserves g 101 sol m x y h⟩

/-- Witness for claim C9: the decided cell (0, 0) of [[0]] survives a pass
and the full propagation under the clue 0 at (0, 0). -/
theorem claim_C9_witness :
    cellAt (analyzeConstraints [[some 0]] [[0]]).1 0 0 = cellAt [[0]] 0 0 ∧
    cellAt (basicConstraintPropagation [[0]] [[some 0]] defaultMgr.reset).1 0 0
      = cellAt [[0]] 0 0 :=
  claim_C9 [[some 0]] [[0]] defaultMgr.reset 0 0 (by decide)

/-! ## Claim C2: verification at the DONE terminal -/

/-- Soundness of the legacy value loop: a solution it hands up came from the
continuation. -/
theorem btTryVals_sound (k : Sol → Mgr → OldRes) (g : ClueGrid) (working : Sol)
    (row col : Nat) (hk : ∀ s m w, (k s m).res = some w → isValidSolution w g = true) :
    ∀ (vals : List Int) (m : Mgr) (w : Sol),
      (btTryVals k g working row col vals m).res = some w →
        isValidSolution w g = true := by
  intro vals
  induction vals with
  | nil => intro m w h; simp [btTryVals] at h
  | cons v rest ih =>
    intro m w h
    simp only [btTryVals] at h
    by_cases hs : (shouldStop m).1 = true
    · simp [hs] at h
    · simp only [hs, Bool.false_eq_true, if_false] at h
      by_cases hcw : isConsistentWithConstraints (setCell working row col v) g = true
      · simp only [hcw, if_true] at h
        by_cases hs2 : (shouldStop (basicConstraintPropagation (setCell working row col v)
            g (shouldStop m).2).2).1 = true
        · simp only [hs2] at h
          exact ih _ _ h
        · simp only [hs2] at h
          by_cases hcp : isConsistentWithConstraints
              (basicConstraintPropagation (setCell working row col v) g
                (shouldStop m).2).1 g = true
          · simp only [hcp] at h
            simp only [Bool.not_true, Bool.false_and, Bool.not_false, Bool.true_and,
              if_true] at h
            split at h
            · rename_i sol heq
              cases h
              exact hk _ _ _ heq
            · exact ih _ _ h
          · simp only [hcp] at h
            simp at h
            exact ih _ _ h
      · simp only [hcw, Bool.false_eq_true, if_false] at h
        exact ih _ _ h

/-- Soundness of the legacy backtracking search: every solution it returns
passes the explicit isValidSolution check at its terminal. -/
theorem backtrackSolveGo_sound (g : ClueGrid) : ∀ (fuel : Nat) (sol : Sol) (m : Mgr) (w : Sol),
    (backtrackSolveGo g fuel sol m).res = some w → isValidSolution w g = true := by
  intro fuel
  induction fuel with
  | zero => intro sol m w h; simp [backtrackSolveGo] at h
  | succ fuel ih =>
    intro sol m w h
    simp only [backtrackSolveGo] at h
    by_cases hs : (shouldStop m).1 = true
    · simp [hs] at h
    · simp only [hs, Bool.false_eq_true, if_false] at h
      by_cases he : (enterRecursion (shouldStop m).2).1 = true
      · simp [he] at h
      · simp only [he, Bool.false_eq_true, if_false] at h
        split at h
        · simp only at h
          split_ifs at h with hv
          · cases h
            exact hv
        · simp only at h
          exact btTryVals_sound _ g _ _ _ (fun s m w hw => ih s m w hw) _ _ _ h

/-- Counterexample for claim C2: on the 1x1 grid with clue 2, the MAC search
reaches DONE (all one variable assigned) and returns [[0]] without checking
the constraints; the returned assignment violates the clue. -/
theorem claim_C2_cex :
    (macBacktrackSearch 1 1 (buildConstraints [[some 2]] 1 1) 2 (buildVars 1 1)
      defaultMgr.reset).res = some [[0]] ∧
    isValidSolution [[0]] [[some 2]] = false :=
  ⟨by decide, by decide⟩

/-! ## Structural lemmas on the CSP state -/

theorem varAt_set_self (st : CState) (p : Nat) (v : CVar) (h : p < st.length) :
    varAt (setVarAt st p v) p = v :=
  getD_set_self st p v _ h

theorem varAt_set_ne (st : CState) {p q : Nat} (v : CVar) (h : p ≠ q) :
    varAt (setVarAt st p v) q = varAt st q :=
  getD_set_ne st v _ h

theorem length_setVarAt (st : CState) (p : Nat) (v : CVar) :
    (setVarAt st p v).length = st.length := by
  simp [setVarAt]

theorem varAt_set_value (st : CState) (p q : Nat) (v : CVar)
    (hv : v.value = (varAt st p).value) :
    (varAt (setVarAt st p v) q).value = (varAt st q).value := by
  by_cases hpq : p = q
  · subst hpq
    by_cases hp : p < st.length
    · rw [varAt_set_self st p v hp, hv]
    · rw [setVarAt, set_of_length_le st p v (by omega)]
  · rw [varAt_set_ne st v hpq]

theorem revise_length (st : CState) (i j : Nat) (cn : Constr) :
    (revise st i j cn).1.length = st.length :=
  length_setVarAt _ _ _

theorem revise_value (st : CState) (i j : Nat) (cn : Constr) (p : Nat) :
    (varAt (revise st i j cn).1 p).value = (varAt st p).value := by
  exact varAt_set_value st i p _ rfl

theorem revise_domain_subset (st : CState) (i j : Nat) (cn : Constr) (p : Nat) :
    ∀ v ∈ (varAt (revise st i j cn).1 p).domain, v ∈ (varAt st p).domain := by
  intro v hv
  by_cases hpq : i = p
  · subst hpq
    by_cases hp : i < st.length
    · rw [revise, varAt_set_self st i _ hp] at hv
      exact (List.mem_filter.mp hv).1
    · rw [revise, setVarAt, set_of_length_le st i _ (by omega)] at hv
      exact hv
  · rw [revise, varAt_set_ne st _ hpq] at hv
    exact hv

theorem WFVar_of_domain_subset (x : CVar) (d : List Int) (hx : WFVar x)
    (hd : ∀ v ∈ d, v ∈ x.domain) : WFVar { x with domain := d } :=
  ⟨hx.1, fun v hv => hx.2.1 v (hd v hv), fun hne v hv => hx.2.2 hne v (hd v hv)⟩

theorem revise_WFS (st : CState) (i j : Nat) (cn : Constr) (h : WFS st) :
    WFS (revise st i j cn).1 := by
  intro p
  by_cases hpq : i = p
  · subst hpq
    by_cases hp : i < st.length
    · rw [revise, varAt_set_self st i _ hp]
      exact WFVar_of_domain_subset _ _ (h i) fun v hv => (List.mem_filter.mp hv).1
    · rw [revise, setVarAt, set_of_length_le st i _ (by omega)]
      exact h i
  · rw [revise, varAt_set_ne st _ hpq]
    exact h p

theorem ac3Loop_length (cs : List Constr) : ∀ (fuel : Nat) (st : CState) (q : List Arc)
    (m : Mgr), (ac3Loop cs fuel st q m).st.length = st.length := by
  intro fuel
  induction fuel with
  | zero => intro st q m; rfl
  | succ fuel ih =>
    intro st q m
    match q with
    | [] => rfl
    | (i, j, cn) :: rest =>
      simp only [ac3Loop]
      by_cases hs : (shouldStop m).1 = true
      · simp [hs]
      · simp only [hs, Bool.false_eq_true, if_false]
        by_cases hrv : (revise st i j cn).2 = true
        · simp only [hrv, if_true]
          by_cases he : (varAt (revise st i j cn).1 i).domain.isEmpty = true
          · simp only [he, if_true]
            exact revise_length st i j cn
          · simp only [he, Bool.false_eq_true, if_false]
            rw [ih]
            exact revise_length st i j cn
        · simp only [hrv, Bool.false_eq_true, if_false]
          rw [ih]
          exact revise_length st i j cn

theorem ac3Loop_value (cs : List Constr) : ∀ (fuel : Nat) (st : CState) (q : List Arc)
    (m : Mgr) (p : Nat),
    (varAt (ac3Loop cs fuel st q m).st p).value = (varAt st p).value := by
  intro fuel
  induction fuel with
  | zero => intro st q m p; rfl
  | succ fuel ih =>
    intro st q m p
    match q with
    | [] => rfl
    | (i, j, cn) :: rest =>
      simp only [ac3Loop]
      by_cases hs : (shouldStop m).1 = true
      · simp [hs]
      · simp only [hs, Bool.false_eq_true, if_false]
        by_cases hrv : (revise st i j cn).2 = true
        · simp only [hrv, if_true]
          by_cases he : (varAt (revise st i j cn).1 i).domain.isEmpty = true
          · simp only [he, if_true]
            exact revise_value st i j cn p
          · simp only [he, Bool.false_eq_true, if_false]
            rw [ih]
            exact revise_value st i j cn p
        · simp only [hrv, Bool.false_eq_true, if_false]
          rw [ih]
          exact revise_value st i j cn p

theorem ac3Loop_domain_subset (cs : List Constr) : ∀ (fuel : Nat) (st : CState)
    (q : List Arc) (m : Mgr) (p : Nat),
    ∀ v ∈ (varAt (ac3Loop cs fuel st q m).st p).domain, v ∈ (varAt st p).domain := by
  intro fuel
  induction fuel with
  | zero => intro st q m p v hv; exact hv
  | succ fuel ih =>
    intro st q m p v hv
    match q with
    | [] => exact hv
    | (i, j, cn) :: rest =>
      simp only [ac3Loop] at hv
      by_cases hs : (shouldStop m).1 = true
      · simp [hs] at hv
        exact hv
      · simp only [hs, Bool.false_eq_true, if_false] at hv
        by_cases hrv : (revise st i j cn).2 = true
        · simp only [hrv, if_true] at hv
          by_cases he : (varAt (revise st i j cn).1 i).domain.isEmpty = true
          · simp only [he, if_true] at hv
            exact revise_domain_subset st i j cn p v hv
          · simp only [he, Bool.false_eq_true, if_false] at hv
            exact revise_domain_subset st i j cn p v (ih _ _ _ p v hv)
        · simp only [hrv, Bool.false_eq_true, if_false] at hv
          exact revise_domain_subset st i j cn p v (ih _ _ _ p v hv)

theorem ac3Loop_WFS (cs : List Constr) : ∀ (fuel : Nat) (st : CState) (q : List Arc)
    (m : Mgr), WFS st → WFS (ac3Loop cs fuel st q m).st := by
  intro fuel st q m h p
  refine ⟨?_, ?_, ?_⟩
  · rw [ac3Loop_value]
    exact (h p).1
  · intro v hv
    exact (h p).2.1 v (ac3Loop_domain_subset cs fuel st q m p v hv)
  · intro hne v hv
    rw [ac3Loop_value] at hne ⊢
    exact (h p).2.2 hne v (ac3Loop_domain_subset cs fuel st q m p v hv)

theorem getD_of_length_le {α : Type} (l : List α) (i : Nat) (d : α) (h : l.length ≤ i) :
    l.getD i d = d := by
  induction l generalizing i with
  | nil => cases i <;> rfl
  | cons a t ih =>
    cases i with
    | zero => simp at h
    | succ k =>
      show t.getD k d = d
      exact ih k (by simpa using h)

theorem getD_replicate {α : Type} (n : Nat) (a d : α) (i : Nat) (h : i < n) :
    (List.replicate n a).getD i d = a := by
  induction n generalizing i with
  | zero => omega
  | succ n ih =>
    cases i with
    | zero => rfl
    | succ k =>
      rw [List.replicate_succ]
      show (List.replicate n a).getD k d = a
      exact ih k (by omega)

theorem buildVars_WFS (R C : Nat) : WFS (buildVars R C) := by
  intro p
  by_cases h : p < R * C
  · rw [buildVars, varAt, getD_replicate _ _ _ _ (by simpa using h)]
    refine ⟨Or.inl rfl, ?_, ?_⟩
    · intro v hv
      simp at hv
      tauto
    · intro hne
      exact absurd rfl hne
  · rw [buildVars, varAt, getD_of_length_le _ _ _ (by simpa using h)]
    refine ⟨Or.inl rfl, ?_, ?_⟩
    · intro v hv
      simp at hv
    · intro hne
      exact absurd rfl hne

theorem buildVars_length (R C : Nat) : (buildVars R C).length = R * C := by
  simp [buildVars]

theorem assignVar_WFS (st : CState) (p : Nat) (v : Int) (st' : CState) (h : WFS st)
    (ha : assignVar st p v = some st') : WFS st' := by
  rw [assignVar] at ha
  split_ifs at ha with hv
  · cases ha
    intro q
    by_cases hq : p = q
    · subst hq
      by_cases hp : p < st.length
      · rw [varAt_set_self st p _ hp]
        have h01 := (h p).2.1 v hv
        exact ⟨by tauto, by intro w hw; simp at hw; subst hw; exact h01,
          by intro _ w hw; simpa using hw⟩
      · rw [setVarAt, set_of_length_le st p _ (by omega)]
        exact h p
    · rw [varAt_set_ne st _ hq]
      exact h q

theorem assignVar_length (st : CState) (p : Nat) (v : Int) (st' : CState)
    (ha : assignVar st p v = some st') : st'.length = st.length := by
  rw [assignVar] at ha
  split_ifs at ha
  · cases ha
    exact length_setVarAt _ _ _

theorem toSolutionArray_WFSol (st : CState) (R C : Nat) (h : WFS st) :
    WFSol (toSolutionArray st R C) := by
  intro row hrow v hv
  rcases List.mem_map.mp hrow with ⟨r, _, hr⟩
  subst hr
  rcases List.mem_map.mp hv with ⟨c, _, hc⟩
  subst hc
  exact (h (r * C + c)).1

/-- WF and solution well-formedness through the value loop. -/
theorem tryVals_WF (k : CState → Mgr → BtRes) (cs : List Constr) (st0 : CState) (p : Nat)
    (hk : ∀ st m, WFS st → ((∀ w, (k st m).res = some w → WFSol w) ∧ WFS (k st m).st))
    (hst0 : WFS st0) : ∀ (vals : List Int) (m : Mgr),
      (∀ w, (tryVals k cs st0 p vals m).res = some w → WFSol w) ∧
      WFS (tryVals k cs st0 p vals m).st := by
  intro vals
  induction vals with
  | nil => intro m; exact ⟨by intro w h; simp [tryVals] at h, hst0⟩
  | cons v rest ih =>
    intro m
    simp only [tryVals]
    by_cases hs : (shouldStop m).1 = true
    · simp only [hs, if_true]
      exact ⟨by intro w h; simp at h, hst0⟩
    · simp only [hs, Bool.false_eq_true, if_false]
      cases ha : assignVar st0 p v with
      | none => exact ih _
      | some st1 =>
        simp only
        have hst1 : WFS st1 := assignVar_WFS st0 p v st1 hst0 ha
        have hac : WFS (ac3Algorithm cs st1 (shouldStop m).2).st :=
          ac3Loop_WFS cs 1000 st1 _ _ hst1
        by_cases hok : (ac3Algorithm cs st1 (shouldStop m).2).ok = true
        · simp only [hok, if_true]
          rcases hk _ (ac3Algorithm cs st1 (shouldStop m).2).mgr hac with ⟨hk1, hk2⟩
          cases hr : (k (ac3Algorithm cs st1 (shouldStop m).2).st
              (ac3Algorithm cs st1 (shouldStop m).2).mgr).res with
          | some sol =>
            simp only [hr]
            refine ⟨?_, hk2⟩
            intro w hw
            cases hw
            exact hk1 sol hr
          | none =>
            simp only [hr]
            exact ih _
        · simp only [hok, Bool.false_eq_true, if_false]
          exact ih _

/-- WF and solution well-formedness through the MAC backtracking. -/
theorem macBacktrackGo_WF (R C : Nat) (cs : List Constr) : ∀ (fuel : Nat) (st : CState)
    (m : Mgr), WFS st →
      ((∀ w, (macBacktrackGo R C cs fuel st m).res = some w → WFSol w) ∧
       WFS (macBacktrackGo R C cs fuel st m).st) := by
  intro fuel
  induction fuel with
  | zero => intro st m h; exact ⟨by intro w hw; simp [macBacktrackGo] at hw, h⟩
  | succ fuel ih =>
    intro st m h
    simp only [macBacktrackGo]
    by_cases hs : (shouldStop m).1 = true
    · simp only [hs, if_true]
      exact ⟨by intro w hw; simp at hw, h⟩
    · simp only [hs, Bool.false_eq_true, if_false]
      by_cases he : (enterRecursion (shouldStop m).2).1 = true
      · simp only [he, if_true]
        exact ⟨by intro w hw; simp at hw, h⟩
      · simp only [he, Bool.false_eq_true, if_false]
        by_cases hc : isComplete st = true
        · simp only [hc, if_true]
          refine ⟨?_, h⟩
          intro w hw
          injection hw with hw2
          exact hw2 ▸ toSolutionArray_WFSol st R C h
        · simp only [hc, Bool.false_eq_true, if_false]
          cases hg : getMostConstrainedVariable cs st with
          | none => exact ⟨by intro w hw; simp at hw, h⟩
          | some p =>
            simp only
            have ht := tryVals_WF (macBacktrackGo R C cs fuel) cs st p
              (fun st' m' h' => ih st' m' h') h
              (getOrderedValues (varAt st p).domain) (enterRecursion (shouldStop m).2).2
            exact ⟨ht.1, ht.2⟩

theorem ac3Algorithm_length (cs : List Constr) (st : CState) (m : Mgr) :
    (ac3Algorithm cs st m).st.length = st.length :=
  ac3Loop_length cs 1000 st _ m

theorem ac3Algorithm_WFS (cs : List Constr) (st : CState) (m : Mgr) (h : WFS st) :
    WFS (ac3Algorithm cs st m).st :=
  ac3Loop_WFS cs 1000 st _ m h

/-- A complete state's solution array has no unknown entry. -/
theorem toSolutionArray_complete (st : CState) (R C : Nat) (hlen : st.length = R * C)
    (hc : isComplete st = true) :
    ∀ row ∈ toSolutionArray st R C, ∀ v ∈ row, v ≠ -1 := by
  intro row hrow v hv
  rcases List.mem_map.mp hrow with ⟨r, hr, hrow'⟩
  subst hrow'
  rcases List.mem_map.mp hv with ⟨c, hcmem, hv'⟩
  subst hv'
  have hrR := List.mem_range.mp hr
  have hcC := List.mem_range.mp hcmem
  have hidx : r * C + c < st.length := by
    have h1 : r * C + c < (r + 1) * C := by
      rw [Nat.succ_mul]
      omega
    have h2 : (r + 1) * C ≤ R * C := Nat.mul_le_mul_right C (by omega)
    omega
  have hall := List.all_eq_true.mp hc _ (getD_mem st (r * C + c) ⟨-1, []⟩ hidx)
  simpa [varAt] using hall

/-- The dimensions of a solution array. -/
theorem toSolutionArray_dims (st : CState) (R C : Nat) :
    (toSolutionArray st R C).length = R ∧
    ∀ row ∈ toSolutionArray st R C, row.length = C := by
  constructor
  · simp [toSolutionArray]
  · intro row hrow
    rcases List.mem_map.mp hrow with ⟨r, _, hrow'⟩
    subst hrow'
    simp

/-- A solution produced by the value loop keeps the property established by
the continuation. -/
theorem tryVals_res_prop (P : Sol → Prop) (k : CState → Mgr → BtRes) (cs : List Constr)
    (st0 : CState) (p : Nat)
    (hk : ∀ st m w, st.length = st0.length → (k st m).res = some w → P w) :
    ∀ (vals : List Int) (m : Mgr) (w : Sol),
      (tryVals k cs st0 p vals m).res = some w → P w := by
  intro vals
  induction vals with
  | nil => intro m w h; simp [tryVals] at h
  | cons v rest ih =>
    intro m w h
    simp only [tryVals] at h
    by_cases hs : (shouldStop m).1 = true
    · simp [hs] at h
    · simp only [hs, Bool.false_eq_true, if_false] at h
      cases ha : assignVar st0 p v with
      | none =>
        simp only [ha] at h
        exact ih _ _ h
      | some st1 =>
        simp only [ha] at h
        by_cases hok : (ac3Algorithm cs st1 (shouldStop m).2).ok = true
        · simp only [hok, if_true] at h
          cases hr : (k (ac3Algorithm cs st1 (shouldStop m).2).st
              (ac3Algorithm cs st1 (shouldStop m).2).mgr).res with
          | some sol =>
            simp only [hr] at h
            cases h
            refine hk _ _ _ ?_ hr
            rw [ac3Algorithm_length, assignVar_length st0 p v st1 ha]
          | none =>
            simp only [hr] at h
            exact ih _ _ h
        · simp only [hok, Bool.false_eq_true, if_false] at h
          exact ih _ _ h

/-- Whatever the MAC backtracking returns as a solution was read off a
complete state: no entry is unknown, and the dimensions are R x C. -/
theorem macBacktrackGo_res_complete (R C : Nat) (cs : List Constr) :
    ∀ (fuel : Nat) (st : CState) (m : Mgr), st.length = R * C →
      ∀ w, (macBacktrackGo R C cs fuel st m).res = some w →
        (∀ row ∈ w, ∀ v ∈ row, v ≠ -1) ∧ w.length = R ∧ ∀ row ∈ w, row.length = C := by
  intro fuel
  induction fuel with
  | zero => intro st m _ w hw; simp [macBacktrackGo] at hw
  | succ fuel ih =>
    intro st m hlen w hw
    simp only [macBacktrackGo] at hw
    by_cases hs : (shouldStop m).1 = true
    · simp [hs] at hw
    · simp only [hs, Bool.false_eq_true, if_false] at hw
      by_cases he : (enterRecursion (shouldStop m).2).1 = true
      · simp [he] at hw
      · simp only [he, Bool.false_eq_true, if_false] at hw
        by_cases hc : isComplete st = true
        · simp only [hc, if_true] at hw
          injection hw with hw2
          subst hw2
          exact ⟨toSolutionArray_complete st R C hlen hc,
            (toSolutionArray_dims st R C).1, (toSolutionArray_dims st R C).2⟩
        · simp only [hc, Bool.false_eq_true, if_false] at hw
          cases hg : getMostConstrainedVariable cs st with
          | none => simp [hg] at hw
          | some p =>
            simp only [hg] at hw
            refine tryVals_res_prop
              (fun w => (∀ row ∈ w, ∀ v ∈ row, v ≠ -1) ∧ w.length = R ∧
                ∀ row ∈ w, row.length = C)
              (macBacktrackGo R C cs fuel) cs st p ?_ _ _ w hw
            intro st' m' w' hlen' hw'
            exact ih st' m' (by omega) w' hw'

/-- Claim C2 amended, part of the corrected statement: the legacy
backtrackSolve verifies isValidSolution explicitly before returning at its
terminal, so any solution it returns is valid; the MAC backtracking checks
only completeness at DONE, so any solution it returns has every variable
assigned (but, as the counterexample shows, not necessarily every
constraint satisfied). -/
theorem claim_C2_amended :
    (∀ (g : ClueGrid) (fuel : Nat) (sol : Sol) (m : Mgr) (w : Sol),
      (backtrackSolveGo g fuel sol m).res = some w → isValidSolution w g = true) ∧
    (∀ (R C : Nat) (cs : List Constr) (fuel : Nat) (st : CState) (m : Mgr) (w : Sol),
      st.length = R * C → (macBacktrackGo R C cs fuel st m).res = some w →
        ∀ row ∈ w, ∀ v ∈ row, v ≠ -1) :=
  ⟨fun g fuel sol m w h => backtrackSolveGo_sound g fuel sol m w h,
   fun R C cs fuel st m w hlen h =>
     (macBacktrackGo_res_complete R C cs fuel st m hlen w h).1⟩

/-- Witness for the amended C2: the legacy search on the empty 1x1 grid
under clue 0 returns [[0]], which isValidSolution accepts; the MAC search on
the clue-2 1x1 grid returns a grid whose only cell is assigned. -/
theorem claim_C2_amended_witness :
    isValidSolution [[0]] [[some 0]] = true ∧ ((0 : Int) ≠ -1) :=
  ⟨claim_C2_amended.1 [[some 0]] 2 [[-1]] defaultMgr.reset [[0]] (by decide),
   claim_C2_amended.2 1 1 (buildConstraints [[some 2]] 1 1) 2 (buildVars 1 1)
     defaultMgr.reset [[0]] (by decide) (by decide) [0] (by decide) 0 (by decide)⟩

/-! ## Claim C6: the returned grid is fully decided -/

theorem unknownToEmpty_01 (sol : Sol) (h : WFSol sol) :
    ∀ row ∈ unknownToEmpty sol, ∀ v ∈ row, v = 0 ∨ v = 1 := by
  intro row hrow v hv
  rcases List.mem_map.mp hrow with ⟨row0, hrow0, hr⟩
  subst hr
  rcases List.mem_map.mp hv with ⟨v0, hv0, hv'⟩
  subst hv'
  rcases h row0 hrow0 v0 hv0 with h1 | h1 | h1 <;> simp [h1]

theorem macBacktrackSearch_WF (R C : Nat) (cs : List Constr) (fuel : Nat) (st : CState)
    (m : Mgr) (h : WFS st) :
    (∀ w, (macBacktrackSearch R C cs fuel st m).res = some w → WFSol w) ∧
    WFS (macBacktrackSearch R C cs fuel st m).st := by
  simp only [macBacktrackSearch]
  have hac := ac3Algorithm_WFS cs st m h
  by_cases hok : (ac3Algorithm cs st m).ok = true
  · simp only [hok, if_true]
    exact macBacktrackGo_WF R C cs fuel _ _ hac
  · simp only [hok, Bool.false_eq_true, if_false]
    exact ⟨by intro w hw; simp at hw, hac⟩

/-- Claim C6: for every input grid, every configuration and every
termination mode, every cell of the grid returned by the non-stepwise solve
is empty (0) or filled (1): unknown cells are defaulted to empty on return. -/
theorem claim_C6 (g : ClueGrid) (m : Mgr) :
    ∀ row ∈ (solveMosaicAlgorithm g false m).1, ∀ v ∈ row, v = 0 ∨ v = 1 := by
  simp only [solveMosaicAlgorithm, Bool.false_eq_true, if_false, solveMosaicCSP]
  have hwf := macBacktrackSearch_WF g.length (g.headD []).length
    (buildConstraints g g.length (g.headD []).length)
    (g.length * (g.headD []).length + 1)
    (buildVars g.length (g.headD []).length) m.reset
    (buildVars_WFS g.length (g.headD []).length)
  cases hres : (macBacktrackSearch g.length (g.headD []).length
      (buildConstraints g g.length (g.headD []).length)
      (g.length * (g.headD []).length + 1)
      (buildVars g.length (g.headD []).length) m.reset).res with
  | some sol =>
    simp only [hres]
    exact unknownToEmpty_01 sol (hwf.1 sol hres)
  | none =>
    simp only [hres]
    exact unknownToEmpty_01 _ (toSolutionArray_WFSol _ _ _ hwf.2)

/-- Witness for claim C6 at the grid [[1, .]] with the default manager. -/
theorem claim_C6_witness : (0 : Int) = 0 ∨ (0 : Int) = 1 :=
  claim_C6 [[some 1, none]] defaultMgr
    ((solveMosaicAlgorithm [[some 1, none]] false defaultMgr).1.headD [])
    (by decide) 0 (by decide)

/-! ## Claim C5: the shape of a solve call's result -/

theorem unknownToEmpty_dims (sol : Sol) :
    (unknownToEmpty sol).length = sol.length ∧
    ∀ row ∈ unknownToEmpty sol, ∃ row0 ∈ sol, row.length = row0.length := by
  refine ⟨by simp [unknownToEmpty], ?_⟩
  intro row hrow
  rcases List.mem_map.mp hrow with ⟨row0, hrow0, hr⟩
  subst hr
  exact ⟨row0, hrow0, by simp⟩

/-- A solution returned by macBacktrackSearch has the CSP's dimensions. -/
theorem macBacktrackSearch_res_shape (R C : Nat) (cs : List Constr) (fuel : Nat)
    (st : CState) (m : Mgr) (hlen : st.length = R * C) (w : Sol)
    (hw : (macBacktrackSearch R C cs fuel st m).res = some w) :
    w.length = R ∧ ∀ row ∈ w, row.length = C := by
  revert hw
  simp only [macBacktrackSearch]
  by_cases hok : (ac3Algorithm cs st m).ok = true
  · simp only [hok, if_true]
    intro hw
    have hlen2 : (ac3Algorithm cs st m).st.length = R * C := by
      rw [ac3Algorithm_length]
      exact hlen
    have hall := macBacktrackGo_res_complete R C cs fuel _ _ hlen2 w hw
    exact ⟨hall.2.1, hall.2.2⟩
  · simp only [hok, Bool.false_eq_true, if_false]
    intro hw
    simp at hw

/-- Claim C5 amended: every exit path of a non-stepwise solve yields a bare
grid of the input's dimensions (and nothing else: no termination reason is
part of the result). -/
theorem claim_C5_amended (g : ClueGrid) (m : Mgr) :
    (solveMosaicAlgorithm g false m).1.length = g.length ∧
    ∀ row ∈ (solveMosaicAlgorithm g false m).1, row.length = (g.headD []).length := by
  simp only [solveMosaicAlgorithm, Bool.false_eq_true, if_false, solveMosaicCSP]
  cases hres : (macBacktrackSearch g.length (g.headD []).length
      (buildConstraints g g.length (g.headD []).length)
      (g.length * (g.headD []).length + 1)
      (buildVars g.length (g.headD []).length) m.reset).res with
  | some sol =>
    simp only [hres]
    have hshape := macBacktrackSearch_res_shape g.length (g.headD []).length
      (buildConstraints g g.length (g.headD []).length)
      (g.length * (g.headD []).length + 1)
      (buildVars g.length (g.headD []).length) m.reset
      (buildVars_length _ _) sol hres
    refine ⟨by rw [(unknownToEmpty_dims sol).1, hshape.1], ?_⟩
    intro row hrow
    rcases (unknownToEmpty_dims sol).2 row hrow with ⟨row0, hrow0, hl⟩
    rw [hl]
    exact hshape.2 row0 hrow0
  | none =>
    simp only [hres]
    have hdims := toSolutionArray_dims (macBacktrackSearch g.length (g.headD []).length
      (buildConstraints g g.length (g.headD []).length)
      (g.length * (g.headD []).length + 1)
      (buildVars g.length (g.headD []).length) m.reset).st g.length (g.headD []).length
    refine ⟨by rw [(unknownToEmpty_dims _).1, hdims.1], ?_⟩
    intro row hrow
    rcases (unknownToEmpty_dims _).2 row hrow with ⟨row0, hrow0, hl⟩
    rw [hl]
    exact hdims.2 row0 hrow0

/-- Witness for the amended C5 at the grid [[1, .]]. -/
theorem claim_C5_amended_witness :
    ((solveMosaicAlgorithm [[some 1, none]] false defaultMgr).1.headD []).length
      = (([[some 1, none]] : ClueGrid).headD []).length :=
  (claim_C5_amended [[some 1, none]] defaultMgr).2 _ (by decide)

/-- No filled/empty grid meets both the clue 0 and the clue 9 of the 1x2
grid: the two clipped windows are the same two cells, whose filled count
cannot be 0 and 9 at once. -/
theorem g09_unsat : ¬ Satisfiable [[some 0, some 9]] := by
  rintro ⟨sol, _, _, _, hval⟩
  unfold isValidSolution at hval
  simp only [List.all_eq_true, List.mem_range] at hval
  have h0 := hval 0 (by decide) 0 (by decide)
  have h1 := hval 0 (by decide) 1 (by decide)
  have e0 : clueAt [[some 0, some 9]] 0 0 = some 0 := rfl
  have e1 : clueAt [[some 0, some 9]] 0 1 = some 9 := rfl
  rw [e0] at h0
  rw [e1] at h1
  simp only [decide_eq_true_eq] at h0 h1
  have ea : get3x3Area 0 0 ([[(some 0 : Option Int), some 9]].length)
      (([[(some 0 : Option Int), some 9]].headD []).length) = [(0, 0), (0, 1)] := by decide
  have eb : get3x3Area 0 1 ([[(some 0 : Option Int), some 9]].length)
      (([[(some 0 : Option Int), some 9]].headD []).length) = [(0, 0), (0, 1)] := by decide
  rw [ea] at h0
  rw [eb] at h1
  omega

/-- Counterexample for claim C5: two runs with the same configuration (depth
budget 0) — one on the unsolvable grid [[0, 9]] where the governor never
trips, one on the solvable grid [[1, .]] where the depth budget trips the
governor — return the same grid and leave the safety manager in states that agree on
every real field (they differ only in the ghost trip recorder): the caller
receives no termination reason and cannot tell "provably unsolvable" from
"ran out of budget". -/
theorem claim_C5_cex :
    (solveMosaicAlgorithm [[some 0, some 9]] false
        { defaultMgr with maxRecursionDepth := 0 }).1
      = (solveMosaicAlgorithm [[some 1, none]] false
        { defaultMgr with maxRecursionDepth := 0 }).1 ∧
    (solveMosaicAlgorithm [[some 0, some 9]] false
        { defaultMgr with maxRecursionDepth := 0 }).2
      = { (solveMosaicAlgorithm [[some 1, none]] false
          { defaultMgr with maxRecursionDepth := 0 }).2 with tripped := false } ∧
    (solveMosaicAlgorithm [[some 1, none]] false
        { defaultMgr with maxRecursionDepth := 0 }).2.tripped = true ∧
    (solveMosaicAlgorithm [[some 0, some 9]] false
        { defaultMgr with maxRecursionDepth := 0 }).2.tripped = false ∧
    Satisfiable [[some 1, none]] ∧
    ¬ Satisfiable [[some 0, some 9]] :=
  ⟨by decide, by decide, by decide, by decide,
    ⟨[[1, 0]], rfl, by decide, by decide, by decide⟩, g09_unsat⟩

/-! ## Claim C7: no input validation -/

theorem length_filter_eq_countP {α : Type} (p : α → Bool) (l : List α) :
    (l.filter p).length = l.countP p := by
  induction l with
  | nil => rfl
  | cons a t ih =>
    by_cases h : p a = true <;> simp [List.filter_cons, List.countP_cons, h, ih]

theorem flatMap_length_congr {α β γ : Type} (f : α → List β) (f2 : α → List γ)
    (l : List α) (h : ∀ a ∈ l, (f a).length = (f2 a).length) :
    (l.flatMap f).length = (l.flatMap f2).length := by
  induction l with
  | nil => rfl
  | cons a t ih =>
    simp only [List.flatMap_cons, List.length_append]
    rw [h a (List.mem_cons_self _ _), ih fun a ha => h a (List.mem_cons_of_mem _ ha)]

/-- Claim C7 amended: the solver performs no input validation at all: for
every grid — clues outside [0, 9] included — the constraint model is built
unconditionally, with one variable per cell and one constraint per clued
cell. -/
theorem claim_C7_amended (g : ClueGrid) (R C : Nat) :
    (buildVars R C).length = R * C ∧
    (buildConstraints g R C).length =
      ((List.range R).flatMap fun r =>
        (List.range C).filter fun c => (clueAt g r c).isSome).length := by
  refine ⟨buildVars_length R C, ?_⟩
  unfold buildConstraints
  refine flatMap_length_congr _ _ _ ?_
  intro r _
  rw [length_filterMap_eq_countP, length_filter_eq_countP]
  refine countP_congr_of_eq _ _ _ ?_
  intro c _
  cases h : clueAt g r c <;> simp [h]

/-- Witness for the amended C7 at a grid whose only clue, 15, is outside
[0, 9]. -/
theorem claim_C7_amended_witness :
    (buildVars 1 1).length = 1 * 1 ∧
    (buildConstraints [[some 15]] 1 1).length =
      ((List.range 1).flatMap fun r =>
        (List.range 1).filter fun c => (clueAt [[some 15]] r c).isSome).length :=
  claim_C7_amended [[some 15]] 1 1

/-- Counterexample for claim C7: the clue 15 lies outside [0, 9], yet the
constraint graph is built (a constraint with requirement 15) and the solve
runs to completion and returns a grid — nothing rejects the input. -/
theorem claim_C7_cex :
    buildConstraints [[some 15]] 1 1 = [⟨0, 0, 15, [0]⟩] ∧
    (solveMosaicAlgorithm [[some 15]] false defaultMgr).1 = [[0]] :=
  ⟨by decide, by decide⟩

/-! ## Claim C10: what the AC-3 reducer's boolean reports -/

/-- Claim C10 amended: at the loop exits (queue exhausted, stop signal, or
the 1000-arc cap) the AC-3 boolean equals `arcs processed < 1000`; the
emptied-domain exit returns false outright (at any processed count). -/
theorem claim_C10_amended (cs : List Constr) :
    ∀ (fuel : Nat) (st : CState) (q : List Arc) (m : Mgr),
      ((ac3Loop cs fuel st q m).emptied = false →
        (ac3Loop cs fuel st q m).ok = decide ((ac3Loop cs fuel st q m).iter < 1000)) ∧
      ((ac3Loop cs fuel st q m).emptied = true → (ac3Loop cs fuel st q m).ok = false) := by
  intro fuel
  induction fuel with
  | zero =>
    intro st q m
    exact ⟨fun _ => by simp [ac3Loop], fun h => by simp [ac3Loop] at h⟩
  | succ fuel ih =>
    intro st q m
    match q with
    | [] =>
      refine ⟨fun _ => ?_, fun h => by simp [ac3Loop] at h⟩
      simp only [ac3Loop]
      have : 999 - fuel < 1000 := by omega
      simp [this]
    | (i, j, cn) :: rest =>
      simp only [ac3Loop]
      by_cases hs : (shouldStop m).1 = true
      · simp only [hs, if_true]
        refine ⟨fun _ => ?_, fun h => by simp at h⟩
        have : 999 - fuel < 1000 := by omega
        simp [this]
      · simp only [hs, Bool.false_eq_true, if_false]
        by_cases hrv : (revise st i j cn).2 = true
        · simp only [hrv, if_true]
          by_cases he : (varAt (revise st i j cn).1 i).domain.isEmpty = true
          · simp only [he, if_true]
            exact ⟨fun h => by simp at h, fun _ => trivial⟩
          · simp only [he, Bool.false_eq_true, if_false]
            exact ih _ _ _
        · simp only [hrv, Bool.false_eq_true, if_false]
          exact ih _ _ _

/-- Witness for the amended C10: the AC-3 run on the [[1, .]] CSP empties no
domain, and its boolean equals `processed < 1000`. -/
theorem claim_C10_amended_witness :
    (ac3Algorithm (buildConstraints [[some 1, none]] 1 2) (buildVars 1 2)
        defaultMgr.reset).ok
      = decide ((ac3Algorithm (buildConstraints [[some 1, none]] 1 2) (buildVars 1 2)
        defaultMgr.reset).iter < 1000) :=
  (claim_C10_amended (buildConstraints [[some 1, none]] 1 2) 1000 (buildVars 1 2)
    (getAllArcs (buildConstraints [[some 1, none]] 1 2)) defaultMgr.reset).1 (by decide)

/-- Counterexample for claim C10: on the [[0, 9]] CSP the AC-3 run empties a
domain after 3 processed arcs and returns false although 3 < 1000: the
returned boolean is not `processed < 1000` on every exit. -/
theorem claim_C10_cex :
    (ac3Algorithm (buildConstraints [[some 0, some 9]] 1 2) (buildVars 1 2)
        defaultMgr.reset).ok = false ∧
    (ac3Algorithm (buildConstraints [[some 0, some 9]] 1 2) (buildVars 1 2)
        defaultMgr.reset).iter = 3 ∧
    (ac3Algorithm (buildConstraints [[some 0, some 9]] 1 2) (buildVars 1 2)
        defaultMgr.reset).emptied = true :=
  ⟨by decide, by decide, by decide⟩

/-! ## Ghost monotonicity of the manager -/

theorem MgrLe.refl (m : Mgr) : MgrLe m m := ⟨id, id⟩

theorem MgrLe.trans {m1 m2 m3 : Mgr} (h1 : MgrLe m1 m2) (h2 : MgrLe m2 m3) :
    MgrLe m1 m3 :=
  ⟨fun h => h2.1 (h1.1 h), fun h => h2.2 (h1.2 h)⟩

theorem mgrLe_shouldStop (m : Mgr) : MgrLe m (shouldStop m).2 := by
  refine ⟨fun h => ?_, fun h => ?_⟩ <;>
  · simp only [shouldStop, checkTimeout, incrementOperation]
    split_ifs <;> simp_all

theorem mgrLe_enterRecursion (m : Mgr) : MgrLe m (enterRecursion m).2 := by
  refine ⟨fun h => ?_, fun h => ?_⟩ <;>
  · simp only [enterRecursion]
    split_ifs <;> simp_all

theorem mgrLe_exitRecursion (m : Mgr) : MgrLe m (exitRecursion m) := ⟨id, id⟩

theorem shouldStop_ghost (m : Mgr) (h : (shouldStop m).1 = true) :
    (shouldStop m).2.tripped = true := by
  revert h
  simp only [shouldStop, checkTimeout, incrementOperation]
  split_ifs <;> simp_all

theorem enterRecursion_ghost (m : Mgr) (h : (enterRecursion m).1 = true) :
    (enterRecursion m).2.tripped = true := by
  revert h
  simp only [enterRecursion]
  split_ifs <;> simp_all

theorem mgrLe_ac3Loop (cs : List Constr) : ∀ (fuel : Nat) (st : CState) (q : List Arc)
    (m : Mgr), MgrLe m (ac3Loop cs fuel st q m).mgr := by
  intro fuel
  induction fuel with
  | zero =>
    intro st q m
    exact ⟨fun h => by simp [ac3Loop, h], fun _ => by simp [ac3Loop]⟩
  | succ fuel ih =>
    intro st q m
    match q with
    | [] => exact MgrLe.refl m
    | (i, j, cn) :: rest =>
      simp only [ac3Loop]
      by_cases hs : (shouldStop m).1 = true
      · simp only [hs, if_true]
        exact mgrLe_shouldStop m
      · simp only [hs, Bool.false_eq_true, if_false]
        by_cases hrv : (revise st i j cn).2 = true
        · simp only [hrv, if_true]
          by_cases he : (varAt (revise st i j cn).1 i).domain.isEmpty = true
          · simp only [he, if_true]
            exact mgrLe_shouldStop m
          · simp only [he, Bool.false_eq_true, if_false]
            exact (mgrLe_shouldStop m).trans (ih _ _ _)
        · simp only [hrv, Bool.false_eq_true, if_false]
          exact (mgrLe_shouldStop m).trans (ih _ _ _)

theorem mgrLe_ac3Algorithm (cs : List Constr) (st : CState) (m : Mgr) :
    MgrLe m (ac3Algorithm cs st m).mgr :=
  mgrLe_ac3Loop cs 1000 st _ m

theorem mgrLe_tryVals (k : CState → Mgr → BtRes) (cs : List Constr) (st0 : CState)
    (p : Nat) (hk : ∀ st m, MgrLe m (k st m).mgr) :
    ∀ (vals : List Int) (m : Mgr), MgrLe m (tryVals k cs st0 p vals m).mgr := by
  intro vals
  induction vals with
  | nil => intro m; exact MgrLe.refl m
  | cons v rest ih =>
    intro m
    simp only [tryVals]
    by_cases hs : (shouldStop m).1 = true
    · simp only [hs, if_true]
      exact mgrLe_shouldStop m
    · simp only [hs, Bool.false_eq_true, if_false]
      cases ha : assignVar st0 p v with
      | none => exact (mgrLe_shouldStop m).trans (ih _)
      | some st1 =>
        simp only
        by_cases hok : (ac3Algorithm cs st1 (shouldStop m).2).ok = true
        · simp only [hok, if_true]
          cases hr : (k (ac3Algorithm cs st1 (shouldStop m).2).st
              (ac3Algorithm cs st1 (shouldStop m).2).mgr).res with
          | some sol =>
            simp only [hr]
            exact ((mgrLe_shouldStop m).trans (mgrLe_ac3Algorithm cs st1 _)).trans
              (hk _ _)
          | none =>
            simp only [hr]
            exact (((mgrLe_shouldStop m).trans (mgrLe_ac3Algorithm cs st1 _)).trans
              (hk _ _)).trans (ih _)
        · simp only [hok, Bool.false_eq_true, if_false]
          exact ((mgrLe_shouldStop m).trans (mgrLe_ac3Algorithm cs st1 _)).trans (ih _)

theorem mgrLe_macBacktrackGo (R C : Nat) (cs : List Constr) : ∀ (fuel : Nat)
    (st : CState) (m : Mgr), MgrLe m (macBacktrackGo R C cs fuel st m).mgr := by
  intro fuel
  induction fuel with
  | zero => intro st m; exact ⟨fun h => by simp [macBacktrackGo, h], fun h => by
      simp [macBacktrackGo, h]⟩
  | succ fuel ih =>
    intro st m
    simp only [macBacktrackGo]
    by_cases hs : (shouldStop m).1 = true
    · simp only [hs, if_true]
      exact mgrLe_shouldStop m
    · simp only [hs, Bool.false_eq_true, if_false]
      by_cases he : (enterRecursion (shouldStop m).2).1 = true
      · simp only [he, if_true]
        exact ((mgrLe_shouldStop m).trans (mgrLe_enterRecursion _)).trans
          (mgrLe_exitRecursion _)
      · simp only [he, Bool.false_eq_true, if_false]
        by_cases hc : isComplete st = true
        · simp only [hc, if_true]
          exact ((mgrLe_shouldStop m).trans (mgrLe_enterRecursion _)).trans
            (mgrLe_exitRecursion _)
        · simp only [hc, Bool.false_eq_true, if_false]
          cases hg : getMostConstrainedVariable cs st with
          | none =>
            exact ((mgrLe_shouldStop m).trans (mgrLe_enterRecursion _)).trans
              (mgrLe_exitRecursion _)
          | some p =>
            simp only
            cases hb : (tryVals (macBacktrackGo R C cs fuel) cs st p
                (getOrderedValues (varAt st p).domain) (enterRecursion (shouldStop m).2).2).res
            all_goals
              refine ((mgrLe_shouldStop m).trans (mgrLe_enterRecursion _)).trans
                (MgrLe.trans ?_ (mgrLe_exitRecursion _))
              exact mgrLe_tryVals (macBacktrackGo R C cs fuel) cs st p
                (fun st' m' => ih st' m') _ _

/-! ## Constraint satisfaction vs a solution assignment -/

theorem isSatisfied_iff (st : CState) (cn : Constr) :
    isSatisfied st cn = true ↔
      ((filledCountC st cn.scope : Int) ≤ cn.req ∧
       cn.req ≤ (filledCountC st cn.scope : Int) + unknownCountC st cn.scope) := by
  simp only [isSatisfied]
  split_ifs with h1 h2 <;> constructor <;> intro h <;> first | omega | rfl | simp_all

theorem isSatisfied_congr_values (st st2 : CState)
    (h : ∀ p, (varAt st2 p).value = (varAt st p).value) (cn : Constr) :
    isSatisfied st2 cn = isSatisfied st cn := by
  unfold isSatisfied filledCountC unknownCountC
  rw [countP_congr_of_eq (fun p => decide ((varAt st2 p).value = 1))
      (fun p => decide ((varAt st p).value = 1)) cn.scope (fun p _ => by
        show decide ((varAt st2 p).value = 1) = decide ((varAt st p).value = 1)
        rw [h p]),
    countP_congr_of_eq (fun p => decide ((varAt st2 p).value = -1))
      (fun p => decide ((varAt st p).value = -1)) cn.scope (fun p _ => by
        show decide ((varAt st2 p).value = -1) = decide ((varAt st p).value = -1)
        rw [h p])]

/-- A state agreeing with a meeting assignment satisfies the constraint:
the assigned cells give at most the required fills, and together with the
unknown cells at least the required fills. -/
theorem isSatisfied_of_respects (st : CState) (cn : Constr) (f : Nat → Int)
    (hv3 : ∀ p, (varAt st p).value = -1 ∨ (varAt st p).value = 0 ∨ (varAt st p).value = 1)
    (hresp : Respects f st) (hb : ∀ p ∈ cn.scope, p < st.length)
    (hsat : (cn.scope.countP (fun p => decide (f p = 1)) : Int) = cn.req) :
    isSatisfied st cn = true := by
  rw [isSatisfied_iff]
  have c1 : filledCountC st cn.scope ≤ cn.scope.countP fun p => decide (f p = 1) := by
    refine countP_mono_of_imp _ _ _ ?_
    intro p hp hv
    have hv' := of_decide_eq_true hv
    have hr := (hresp p (hb p hp)).1 (by rw [hv']; decide)
    rw [hv'] at hr
    simp [← hr]
  have c2 : cn.scope.countP (fun p => decide (f p = 1)) ≤
      filledCountC st cn.scope + unknownCountC st cn.scope := by
    refine countP_le_add_of_imp _ _ _ _ ?_
    intro p hp hv
    have hf := of_decide_eq_true hv
    rcases hv3 p with h1 | h1 | h1
    · right
      simp [h1]
    · exfalso
      have hr := (hresp p (hb p hp)).1 (by rw [h1]; decide)
      rw [h1, hf] at hr
      exact absurd hr (by decide)
    · left
      simp [h1]
  unfold filledCountC unknownCountC at *
  omega

theorem length_overrideVals (st : CState) (i : Nat) (vi : Int) (j : Nat) (vj : Int) :
    (overrideVals st i vi j vj).length = st.length := by
  simp [overrideVals, setVarAt]

theorem respects_overrideVals (f : Nat → Int) (st : CState) (i j : Nat)
    (hresp : Respects f st) :
    Respects f (overrideVals st i (f i) j (f j)) := by
  intro p hp
  rw [length_overrideVals] at hp
  unfold overrideVals
  by_cases hj : j = p
  · subst hj
    have hjlen : j < (setVarAt st i { varAt st i with value := f i }).length := by
      rw [length_setVarAt]
      exact hp
    rw [varAt_set_self _ _ _ hjlen]
    refine ⟨fun _ => rfl, ?_⟩
    by_cases hij : i = j
    · subst hij
      rw [varAt_set_self _ _ _ (by exact hp)]
      exact (hresp i hp).2
    · rw [varAt_set_ne st _ hij]
      exact (hresp j hp).2
  · rw [varAt_set_ne _ _ hj]
    by_cases hij : i = p
    · subst hij
      rw [varAt_set_self _ _ _ (by exact hp)]
      exact ⟨fun _ => rfl, (hresp i hp).2⟩
    · rw [varAt_set_ne st _ hij]
      exact hresp p hp

theorem vals3_overrideVals (st : CState) (i : Nat) (vi : Int) (j : Nat) (vj : Int)
    (hv3 : ∀ p, (varAt st p).value = -1 ∨ (varAt st p).value = 0 ∨ (varAt st p).value = 1)
    (hvi : vi = -1 ∨ vi = 0 ∨ vi = 1) (hvj : vj = -1 ∨ vj = 0 ∨ vj = 1) :
    ∀ p, (varAt (overrideVals st i vi j vj) p).value = -1 ∨
      (varAt (overrideVals st i vi j vj) p).value = 0 ∨
      (varAt (overrideVals st i vi j vj) p).value = 1 := by
  intro p
  unfold overrideVals
  by_cases hj : j = p
  · subst hj
    by_cases hjlen : j < (setVarAt st i { varAt st i with value := vi }).length
    · rw [varAt_set_self _ _ _ hjlen]
      exact hvj
    · rw [setVarAt, set_of_length_le _ _ _ (by omega)]
      by_cases hij : i = j
      · subst hij
        by_cases hil : i < st.length
        · rw [varAt_set_self _ _ _ hil]
          exact hvi
        · rw [setVarAt, set_of_length_le _ _ _ (by omega)]
          exact hv3 i
      · rw [varAt_set_ne st _ hij]
        exact hv3 j
  · rw [varAt_set_ne _ _ hj]
    by_cases hij : i = p
    · subst hij
      by_cases hil : i < st.length
      · rw [varAt_set_self _ _ _ hil]
        exact hvi
      · rw [setVarAt, set_of_length_le _ _ _ (by omega)]
        exact hv3 i
    · rw [varAt_set_ne st _ hij]
      exact hv3 p

theorem set_varAt_self (st : CState) (i : Nat) :
    setVarAt st i (varAt st i) = st := by
  unfold setVarAt varAt
  induction st generalizing i with
  | nil => rfl
  | cons a t ih =>
    cases i with
    | zero => rfl
    | succ n => simpa using ih n

/-- The temporary override with the variables' own values is the state
itself. -/
theorem overrideVals_self (st : CState) (i j : Nat) :
    overrideVals st i (varAt st i).value j (varAt st j).value = st := by
  have h1 : setVarAt st i { varAt st i with value := (varAt st i).value } = st := by
    have he : ({ varAt st i with value := (varAt st i).value } : CVar) = varAt st i := rfl
    rw [he, set_varAt_self]
  calc overrideVals st i (varAt st i).value j (varAt st j).value
      = setVarAt (setVarAt st i { varAt st i with value := (varAt st i).value }) j
          { varAt (setVarAt st i { varAt st i with value := (varAt st i).value }) j with
            value := (varAt st j).value } := rfl
    _ = setVarAt st j { varAt st j with value := (varAt st j).value } := by rw [h1]
    _ = st := by
          have he : ({ varAt st j with value := (varAt st j).value } : CVar) = varAt st j := rfl
          rw [he, set_varAt_self]

/-! ## Arc bookkeeping -/

theorem mem_getArcsAux (cn : Constr) : ∀ (l : List Nat) (a : Arc),
    a ∈ getArcsAux cn l → a.2.2 = cn ∧ a.1 ∈ l ∧ a.2.1 ∈ l := by
  intro l
  induction l with
  | nil => intro a ha; simp [getArcsAux] at ha
  | cons x rest ih =>
    intro a ha
    rw [getArcsAux, List.mem_append] at ha
    rcases ha with ha | ha
    · rcases List.mem_flatMap.mp ha with ⟨y, hy, ha2⟩
      rcases List.mem_cons.mp ha2 with h | h
      · subst h
        exact ⟨rfl, List.mem_cons_self _ _, List.mem_cons_of_mem _ hy⟩
      · rcases List.mem_cons.mp h with h | h
        · subst h
          exact ⟨rfl, List.mem_cons_of_mem _ hy, List.mem_cons_self _ _⟩
        · simp at h
    · have := ih a ha
      exact ⟨this.1, List.mem_cons_of_mem _ this.2.1, List.mem_cons_of_mem _ this.2.2⟩

theorem mem_getAllArcs (cs : List Constr) (a : Arc) (ha : a ∈ getAllArcs cs) :
    a.2.2 ∈ cs ∧ a.1 ∈ a.2.2.scope ∧ a.2.1 ∈ a.2.2.scope := by
  rcases List.mem_flatMap.mp ha with ⟨cn, hcn, ha2⟩
  have h := mem_getArcsAux cn cn.scope a ha2
  rw [h.1]
  exact ⟨hcn, h.2.1, h.2.2⟩

/-- An arc of every at-least-binary constraint is in the initial queue. -/
theorem arc_mem_getAllArcs_of_big (cs : List Constr) (cn : Constr) (hcn : cn ∈ cs)
    (hbig : 2 ≤ cn.scope.length) :
    ∃ i j, (i, j, cn) ∈ getAllArcs cs ∧ i ∈ cn.scope ∧ j ∈ cn.scope := by
  rcases hs : cn.scope with _ | ⟨x, _ | ⟨y, rest⟩⟩
  · rw [hs] at hbig
    simp at hbig
  · rw [hs] at hbig
    simp at hbig
  · refine ⟨x, y, ?_, List.mem_cons_self _ _,
      List.mem_cons_of_mem _ (List.mem_cons_self _ _)⟩
    refine List.mem_flatMap.mpr ⟨cn, hcn, ?_⟩
    unfold getArcs
    rw [hs, getArcsAux, List.mem_append]
    left
    refine List.mem_flatMap.mpr ⟨y, List.mem_cons_self _ _, ?_⟩
    exact List.mem_cons_self _ _

theorem requeueArcs_bounds (cs : List Constr) (N : Nat) (i j : Nat)
    (hsb : ScopeBounded cs N) (hi : i < N) :
    ∀ a ∈ requeueArcs cs i j, a.1 < N ∧ a.2.1 < N ∧ a.2.2 ∈ cs := by
  intro a ha
  rcases List.mem_flatMap.mp ha with ⟨nc, hnc, ha2⟩
  have hnc2 : nc ∈ cs := List.mem_filter.mp hnc |>.1
  rcases List.mem_map.mp ha2 with ⟨xk, hxk, hae⟩
  subst hae
  exact ⟨hsb nc hnc2 xk (List.mem_filter.mp hxk).1, hi, hnc2⟩

theorem getAllArcs_bounds (cs : List Constr) (N : Nat) (hsb : ScopeBounded cs N) :
    ∀ a ∈ getAllArcs cs, a.1 < N ∧ a.2.1 < N ∧ a.2.2 ∈ cs := by
  intro a ha
  have h := mem_getAllArcs cs a ha
  exact ⟨hsb _ h.1 _ h.2.1, hsb _ h.1 _ h.2.2, h.1⟩

theorem filter_eq_nil_of_all_false {α : Type} (p : α → Bool) (l : List α)
    (h : ∀ a ∈ l, p a = false) : l.filter p = [] := by
  induction l with
  | nil => rfl
  | cons a t ih =>
    rw [List.filter_cons, h a (List.mem_cons_self _ _)]
    exact ih fun a ha => h a (List.mem_cons_of_mem _ ha)

theorem any_eq_false_of {α : Type} (p : α → Bool) (l : List α)
    (h : ∀ a ∈ l, p a = false) : l.any p = false := by
  induction l with
  | nil => rfl
  | cons a t ih =>
    rw [List.any_cons, h a (List.mem_cons_self _ _),
      ih fun a ha => h a (List.mem_cons_of_mem _ ha)]
    rfl

theorem isEmpty_false_iff {α : Type} (l : List α) : l.isEmpty = false ↔ l ≠ [] := by
  cases l <;> simp

theorem revise_domain_ne (st : CState) {i j : Nat} (cn : Constr) {p : Nat} (h : i ≠ p) :
    (varAt (revise st i j cn).1 p).domain = (varAt st p).domain := by
  rw [revise, varAt_set_ne st _ h]

theorem revise_domain_self (st : CState) (i j : Nat) (cn : Constr) (hi : i < st.length) :
    (varAt (revise st i j cn).1 i).domain =
      (varAt st i).domain.filter fun v =>
        (decide ((varAt st i).value ≠ -1) && decide ((varAt st i).value ≠ v)) ||
          existsConsistentValue st i v j cn := by
  rw [revise, varAt_set_self _ _ _ hi]

/-- DomNE survives one revise whose emptiness check passed (or that removed
nothing). -/
theorem revise_domNE (st : CState) (i j : Nat) (cn : Constr) (hdne : DomNE st)
    (hch : (revise st i j cn).2 = false ∨
      (varAt (revise st i j cn).1 i).domain.isEmpty = false) :
    DomNE (revise st i j cn).1 := by
  intro p hp
  rw [revise_length] at hp
  by_cases hip : i = p
  · subst hip
    by_cases hil : i < st.length
    · rcases hch with hch | hch
      · rw [revise_domain_self st i j cn hil]
        intro hnil
        simp only [revise, decide_eq_false_iff_not, not_not] at hch
        rw [hnil] at hch
        have h0 := hdne i hil
        have hz : (varAt st i).domain.length = 0 := by simpa using hch.symm
        exact h0 (List.length_eq_zero.mp hz)
      · exact (isEmpty_false_iff _).mp hch
    · omega
  · rw [revise_domain_ne st cn hip]
    exact hdne p hp

/-- On a fully assigned state, revising an arc of a violated constraint
empties the source variable's domain. -/
theorem revise_empties_of_unsat (st : CState) (i j : Nat) (cn : Constr)
    (hwf : WFS st) (hi : i < st.length)
    (hai : (varAt st i).value ≠ -1) (haj : (varAt st j).value ≠ -1)
    (hne : (varAt st i).domain ≠ [])
    (hunsat : isSatisfied st cn = false) :
    (revise st i j cn).2 = true ∧
    (varAt (revise st i j cn).1 i).domain.isEmpty = true := by
  have hkeep : ∀ v ∈ (varAt st i).domain,
      ((decide ((varAt st i).value ≠ -1) && decide ((varAt st i).value ≠ v)) ||
        existsConsistentValue st i v j cn) = false := by
    intro v hv
    have hvv : v = (varAt st i).value := (hwf i).2.2 hai v hv
    have h1 : decide ((varAt st i).value ≠ v) = false := by
      subst hvv
      simp
    have h2 : existsConsistentValue st i v j cn = false := by
      unfold existsConsistentValue
      refine any_eq_false_of _ _ ?_
      intro w hw
      have hww : w = (varAt st j).value := (hwf j).2.2 haj w hw
      unfold isConsistentAssignment
      rw [hvv, hww, overrideVals_self]
      exact hunsat
    rw [h1, h2]
    simp
  have hfil : ((varAt st i).domain.filter fun v =>
      (decide ((varAt st i).value ≠ -1) && decide ((varAt st i).value ≠ v)) ||
        existsConsistentValue st i v j cn) = [] :=
    filter_eq_nil_of_all_false _ _ hkeep
  constructor
  · show (revise st i j cn).2 = true
    unfold revise
    simp only [hfil]
    simp only [decide_eq_true_eq, List.length_nil]
    intro hlen0
    exact hne (List.length_eq_zero.mp hlen0.symm)
  · rw [revise_domain_self st i j cn hi, hfil]
    rfl

/-- On a fully assigned state with nonempty domains, if some queued arc's
constraint is violated, AC-3 either returns false or exits on a governor
stop or on its arc cap (recorded in the ghosts). -/
theorem ac3Loop_detects (cs : List Constr) (N : Nat) (hsb : ScopeBounded cs N) :
    ∀ (fuel : Nat) (st : CState) (q : List Arc) (m : Mgr),
      st.length = N → WFS st → AllAssigned st → DomNE st →
      (∀ a ∈ q, a.1 < N ∧ a.2.1 < N ∧ a.2.2 ∈ cs) →
      ∀ (i j : Nat) (cn : Constr), (i, j, cn) ∈ q → isSatisfied st cn = false →
      ((ac3Loop cs fuel st q m).ok = false ∨
       (ac3Loop cs fuel st q m).mgr.tripped = true ∨
       (ac3Loop cs fuel st q m).mgr.capEver = true) := by
  intro fuel
  induction fuel with
  | zero =>
    intro st q m _ _ _ _ _ i j cn _ _
    right
    right
    rfl
  | succ fuel ih =>
    intro st q m hlen hwf hall hdne hq i j cn hmem hunsat
    cases q with
    | nil => simp at hmem
    | cons a rest =>
      rcases a with ⟨i0, j0, cn0⟩
      simp only [ac3Loop]
      by_cases hs : (shouldStop m).1 = true
      · simp only [hs, if_true]
        right
        left
        exact shouldStop_ghost m hs
      · simp only [hs, Bool.false_eq_true, if_false]
        have hb0 := hq (i0, j0, cn0) (List.mem_cons_self _ _)
        dsimp only at hb0
        have hi0 : i0 < st.length := by omega
        have hj0 : j0 < st.length := by omega
        rcases List.mem_cons.mp hmem with heq | hmem'
        · -- our arc is the head: the revise empties i0's domain
          have heq2 : i = i0 ∧ j = j0 ∧ cn = cn0 := by
            have h1 := congrArg Prod.fst heq
            have h2 := congrArg (fun x => x.2.1) heq
            have h3 := congrArg (fun x => x.2.2) heq
            exact ⟨h1, h2, h3⟩
          have hem := revise_empties_of_unsat st i0 j0 cn0 hwf hi0
            (hall i0 hi0) (hall j0 hj0) (hdne i0 hi0) (by rw [← heq2.2.2]; exact hunsat)
          rw [if_pos hem.1, if_pos hem.2]
          left
          rfl
        · -- our arc is in the tail
          by_cases hrv : (revise st i0 j0 cn0).2 = true
          · simp only [hrv, if_true]
            by_cases hemp : (varAt (revise st i0 j0 cn0).1 i0).domain.isEmpty = true
            · simp only [hemp, if_true]
              left
              trivial
            · simp only [hemp, Bool.false_eq_true, if_false]
              refine ih (revise st i0 j0 cn0).1 (rest ++ requeueArcs cs i0 j0)
                (shouldStop m).2 (by rw [revise_length]; exact hlen)
                (revise_WFS st i0 j0 cn0 hwf) ?_ ?_ ?_ i j cn
                (List.mem_append.mpr (Or.inl hmem')) ?_
              · intro p hp
                rw [revise_length] at hp
                rw [revise_value]
                exact hall p hp
              · exact revise_domNE st i0 j0 cn0 hdne (Or.inr (by
                  cases h : (varAt (revise st i0 j0 cn0).1 i0).domain.isEmpty
                  · rfl
                  · exact absurd h hemp))
              · intro a ha
                rcases List.mem_append.mp ha with ha | ha
                · exact hq a (List.mem_cons_of_mem _ ha)
                · exact requeueArcs_bounds cs N i0 j0 hsb (by omega) a ha
              · rw [isSatisfied_congr_values st (revise st i0 j0 cn0).1
                  (fun p => by rw [revise_value]) cn]
                exact hunsat
          · simp only [hrv, Bool.false_eq_true, if_false]
            refine ih (revise st i0 j0 cn0).1 rest (shouldStop m).2
              (by rw [revise_length]; exact hlen) (revise_WFS st i0 j0 cn0 hwf)
              ?_ ?_ ?_ i j cn hmem' ?_
            · intro p hp
              rw [revise_length] at hp
              rw [revise_value]
              exact hall p hp
            · exact revise_domNE st i0 j0 cn0 hdne (Or.inl (by
                cases h : (revise st i0 j0 cn0).2
                · rfl
                · exact absurd h hrv))
            · intro a ha
              exact hq a (List.mem_cons_of_mem _ ha)
            · rw [isSatisfied_congr_values st (revise st i0 j0 cn0).1
                (fun p => by rw [revise_value]) cn]
              exact hunsat

theorem isEmpty_true_iff {α : Type} (l : List α) : l.isEmpty = true ↔ l = [] := by
  cases l <;> simp

/-- Nonempty domains survive an AC-3 run that did not take the
emptied-domain exit. -/
theorem ac3Loop_domNE (cs : List Constr) : ∀ (fuel : Nat) (st : CState) (q : List Arc)
    (m : Mgr), DomNE st → (ac3Loop cs fuel st q m).emptied = false →
    DomNE (ac3Loop cs fuel st q m).st := by
  intro fuel
  induction fuel with
  | zero => intro st q m h _; exact h
  | succ fuel ih =>
    intro st q m h hemp
    match q with
    | [] => exact h
    | (i, j, cn) :: rest =>
      simp only [ac3Loop] at hemp ⊢
      by_cases hs : (shouldStop m).1 = true
      · simp only [hs, if_true]
        exact h
      · simp only [hs, Bool.false_eq_true, if_false] at hemp ⊢
        by_cases hrv : (revise st i j cn).2 = true
        · simp only [hrv, if_true] at hemp ⊢
          by_cases he : (varAt (revise st i j cn).1 i).domain.isEmpty = true
          · simp only [he, if_true] at hemp
            cases hemp
          · simp only [he, Bool.false_eq_true, if_false] at hemp ⊢
            refine ih _ _ _ ?_ hemp
            exact revise_domNE st i j cn h (Or.inr (by
              cases hx : (varAt (revise st i j cn).1 i).domain.isEmpty
              · rfl
              · exact absurd hx he))
        · simp only [hrv, Bool.false_eq_true, if_false] at hemp ⊢
          refine ih _ _ _ ?_ hemp
          exact revise_domNE st i j cn h (Or.inl (by
            cases hx : (revise st i j cn).2
            · rfl
            · exact absurd hx hrv))

/-- An AC-3 run that reports consistency did not take the emptied-domain
exit. -/
theorem ac3Loop_ok_not_emptied (cs : List Constr) : ∀ (fuel : Nat) (st : CState)
    (q : List Arc) (m : Mgr), (ac3Loop cs fuel st q m).ok = true →
    (ac3Loop cs fuel st q m).emptied = false := by
  intro fuel
  induction fuel with
  | zero => intro st q m h; cases h
  | succ fuel ih =>
    intro st q m h
    match q with
    | [] => rfl
    | (i, j, cn) :: rest =>
      simp only [ac3Loop] at h ⊢
      by_cases hs : (shouldStop m).1 = true
      · simp only [hs, if_true]
      · simp only [hs, Bool.false_eq_true, if_false] at h ⊢
        by_cases hrv : (revise st i j cn).2 = true
        · simp only [hrv, if_true] at h ⊢
          by_cases he : (varAt (revise st i j cn).1 i).domain.isEmpty = true
          · simp only [he, if_true] at h
            cases h
          · simp only [he, Bool.false_eq_true, if_false] at h ⊢
            exact ih _ _ _ h
        · simp only [hrv, Bool.false_eq_true, if_false] at h ⊢
          exact ih _ _ _ h

/-- One revise never drops the `f`-value of any domain when `f` meets the
arc's constraint. -/
theorem revise_keeps_respects (f : Nat → Int) (st : CState) (i j : Nat) (cn : Constr)
    (hi : i < st.length) (hj : j < st.length) (hwf : WFS st) (hresp : Respects f st)
    (hb : ∀ p ∈ cn.scope, p < st.length)
    (hfsat : (cn.scope.countP (fun p => decide (f p = 1)) : Int) = cn.req) :
    Respects f (revise st i j cn).1 := by
  intro p hp
  rw [revise_length] at hp
  by_cases hip : i = p
  · subst hip
    constructor
    · rw [revise_value]
      exact (hresp i hp).1
    · rw [revise_domain_self st i j cn hi]
      refine List.mem_filter.mpr ⟨(hresp i hp).2, ?_⟩
      have hex : existsConsistentValue st i (f i) j cn = true := by
        unfold existsConsistentValue
        refine List.any_eq_true.mpr ⟨f j, (hresp j hj).2, ?_⟩
        unfold isConsistentAssignment
        refine isSatisfied_of_respects _ cn f ?_ ?_ ?_ hfsat
        · refine vals3_overrideVals st i (f i) j (f j) (fun p => (hwf p).1) ?_ ?_
          · rcases (hresp i hp).2 with hm
            rcases (hwf i).2.1 (f i) hm with h | h <;> simp [h]
          · rcases (hresp j hj).2 with hm
            rcases (hwf j).2.1 (f j) hm with h | h <;> simp [h]
        · exact respects_overrideVals f st i j hresp
        · intro p2 hp2
          rw [length_overrideVals]
          exact hb p2 hp2
      rw [hex]
      simp
  · constructor
    · rw [revise, varAt_set_ne st _ hip]
      exact (hresp p hp).1
    · rw [revise, varAt_set_ne st _ hip]
      exact (hresp p hp).2

/-- AC-3 preserves agreement with a meeting assignment, and (apart from the
arc cap, which sets its ghost) never reports inconsistency on such a state. -/
theorem ac3Loop_keeps_respects (cs : List Constr) (N : Nat) (f : Nat → Int)
    (hfsat : SatisfiesAll f cs) (hsb : ScopeBounded cs N) :
    ∀ (fuel : Nat) (st : CState) (q : List Arc) (m : Mgr),
      st.length = N → WFS st → Respects f st →
      (∀ a ∈ q, a.1 < N ∧ a.2.1 < N ∧ a.2.2 ∈ cs) →
      Respects f (ac3Loop cs fuel st q m).st ∧
      ((ac3Loop cs fuel st q m).ok = false → (ac3Loop cs fuel st q m).mgr.capEver = true) := by
  intro fuel
  induction fuel with
  | zero =>
    intro st q m _ _ hresp _
    exact ⟨hresp, fun _ => rfl⟩
  | succ fuel ih =>
    intro st q m hlen hwf hresp hq
    match q with
    | [] => exact ⟨hresp, fun h => by cases h⟩
    | (i0, j0, cn0) :: rest =>
      simp only [ac3Loop]
      by_cases hs : (shouldStop m).1 = true
      · simp only [hs, if_true]
        exact ⟨hresp, fun h => by cases h⟩
      · simp only [hs, Bool.false_eq_true, if_false]
        have hb0 := hq (i0, j0, cn0) (List.mem_cons_self _ _)
        dsimp only at hb0
        have hi0 : i0 < st.length := by omega
        have hj0 : j0 < st.length := by omega
        have hrsp1 : Respects f (revise st i0 j0 cn0).1 :=
          revise_keeps_respects f st i0 j0 cn0 hi0 hj0 hwf hresp
            (fun p hp => by rw [hlen]; exact hsb cn0 hb0.2.2 p hp)
            (hfsat cn0 hb0.2.2)
        by_cases hrv : (revise st i0 j0 cn0).2 = true
        · simp only [hrv, if_true]
          by_cases hemp : (varAt (revise st i0 j0 cn0).1 i0).domain.isEmpty = true
          · exfalso
            have hmemf := (hrsp1 i0 (by rw [revise_length]; exact hi0)).2
            rw [(isEmpty_true_iff _).mp hemp] at hmemf
            simp at hmemf
          · simp only [hemp, Bool.false_eq_true, if_false]
            refine ih (revise st i0 j0 cn0).1 (rest ++ requeueArcs cs i0 j0)
              (shouldStop m).2 (by rw [revise_length]; exact hlen)
              (revise_WFS st i0 j0 cn0 hwf) hrsp1 ?_
            intro a ha
            rcases List.mem_append.mp ha with ha | ha
            · exact hq a (List.mem_cons_of_mem _ ha)
            · exact requeueArcs_bounds cs N i0 j0 hsb (by omega) a ha
        · simp only [hrv, Bool.false_eq_true, if_false]
          refine ih (revise st i0 j0 cn0).1 rest (shouldStop m).2
            (by rw [revise_length]; exact hlen) (revise_WFS st i0 j0 cn0 hwf) hrsp1 ?_
          intro a ha
          exact hq a (List.mem_cons_of_mem _ ha)

theorem getD_map_range {α : Type} (f : Nat → α) (n i : Nat) (d : α) (h : i < n) :
    ((List.range n).map f).getD i d = f i := by
  rw [List.getD_eq_getElem ((List.range n).map f) d (by simpa using h)]
  simp

/-- Two states with the same length and values have the same number of
unassigned variables. -/
theorem unCount_congr : ∀ (st st2 : CState), st.length = st2.length →
    (∀ p < st.length, (varAt st p).value = (varAt st2 p).value) →
    unCount st = unCount st2 := by
  intro st
  induction st with
  | nil =>
    intro st2 hlen _
    cases st2
    · rfl
    · simp at hlen
  | cons x t ih =>
    intro st2 hlen hv
    cases st2 with
    | nil => simp at hlen
    | cons y t2 =>
      have h0 : x.value = y.value := hv 0 (by simp)
      have harg : ∀ p < t.length, (varAt t p).value = (varAt t2 p).value := by
        intro p hp
        have hstep := hv (p + 1) (by simp only [List.length_cons]; omega)
        simpa [varAt] using hstep
      have ht := ih t2 (by simpa using hlen) harg
      simp only [unCount, List.countP_cons] at ht ⊢
      rw [ht, h0]

/-- Assigning an unassigned variable drops the unassigned count by one. -/
theorem unCount_set : ∀ (st : CState) (p : Nat) (x : CVar), p < st.length →
    (varAt st p).value = -1 → x.value ≠ -1 →
    unCount (setVarAt st p x) + 1 = unCount st := by
  intro st
  induction st with
  | nil => intro p x hp; simp at hp
  | cons y t ih =>
    intro p x hp hun hx
    cases p with
    | zero =>
      have hy : y.value = -1 := hun
      simp only [setVarAt, List.set_cons_zero, unCount, List.countP_cons, hy, hx]
      simp [hx]
    | succ q =>
      have hq : q < t.length := by simpa using hp
      have hun2 : (varAt t q).value = -1 := by simpa [varAt] using hun
      have hstep := ih q x hq hun2 hx
      simp only [setVarAt, unCount] at hstep ⊢
      simp only [List.set_cons_succ, List.countP_cons]
      omega

theorem unCount_buildVars (R C : Nat) : unCount (buildVars R C) = R * C := by
  unfold unCount buildVars
  induction R * C with
  | zero => rfl
  | succ n ih => simp only [List.replicate_succ, List.countP_cons, ih]; simp

/-- The value ordering is a permutation-free reshuffle: same members. -/
theorem mem_getOrderedValues (dom : List Int) (v : Int) :
    v ∈ dom ↔ v ∈ getOrderedValues dom := by
  unfold getOrderedValues
  rw [List.mem_append]
  constructor
  · intro h
    by_cases h0 : v = 0
    · exact Or.inl (List.mem_filter.mpr ⟨h, by simp [h0]⟩)
    · exact Or.inr (List.mem_filter.mpr ⟨h, by simp [h0]⟩)
  · intro h
    rcases h with h | h <;> exact (List.mem_filter.mp h).1

theorem two_le_length_of_mem_ne {α : Type} {l : List α} {a b : α} (ha : a ∈ l)
    (hb : b ∈ l) (hne : a ≠ b) : 2 ≤ l.length := by
  match l with
  | [] => simp at ha
  | [x] =>
    simp at ha hb
    exact absurd (ha.trans hb.symm) hne
  | x :: y :: t => simp

/-- A complete state is exactly an all-assigned state. -/
theorem isComplete_iff (st : CState) : isComplete st = true ↔ AllAssigned st := by
  unfold isComplete
  rw [List.all_eq_true]
  constructor
  · intro h p hp
    have := h (varAt st p) (getD_mem st p ⟨-1, []⟩ hp)
    simpa using this
  · intro h v hv
    rcases List.mem_iff_getElem.mp hv with ⟨p, hp, hv2⟩
    have := h p hp
    rw [varAt, List.getD_eq_getElem st ⟨-1, []⟩ hp, hv2] at this
    simpa using this

/-- Whatever the best-so-far fold returns satisfies the invariant carried by
the candidates: every picked cell came from the list (unassigned) or from
the seed. -/
theorem gmcvFold_prop (cs : List Constr) (st : CState) (P : Nat → Prop) :
    ∀ (l : List Nat) (best : Option (Nat × Nat × Nat)),
      (∀ b, best = some b → P b.1) →
      (∀ p ∈ l, (varAt st p).value = -1 → P p) →
      ∀ b, gmcvFold cs st l best = some b → P b.1 := by
  intro l
  induction l with
  | nil =>
    intro best hbest _ b hb
    exact hbest b hb
  | cons p rest ih =>
    intro best hbest hl b hb
    simp only [gmcvFold] at hb
    by_cases hun : (varAt st p).value = -1
    · simp only [hun, if_true] at hb
      cases best with
      | none =>
        refine ih _ ?_ (fun q hq => hl q (List.mem_cons_of_mem _ hq)) b hb
        intro b2 hb2
        injection hb2 with hb2
        rw [← hb2]
        exact hl p (List.mem_cons_self _ _) hun
      | some b0 =>
        simp only at hb
        by_cases hcmp : (varAt st p).domain.length < b0.2.1 ∨
            ((varAt st p).domain.length = b0.2.1 ∧
             (constraintsContaining cs p).length > b0.2.2)
        · rw [if_pos hcmp] at hb
          refine ih _ ?_ (fun q hq => hl q (List.mem_cons_of_mem _ hq)) b hb
          intro b2 hb2
          injection hb2 with hb2
          rw [← hb2]
          exact hl p (List.mem_cons_self _ _) hun
        · rw [if_neg hcmp] at hb
          refine ih _ ?_ (fun q hq => hl q (List.mem_cons_of_mem _ hq)) b hb
          intro b2 hb2
          injection hb2 with hb2
          rw [← hb2]
          exact hbest b0 rfl
    · simp only [hun, if_false] at hb
      exact ih _ hbest (fun q hq => hl q (List.mem_cons_of_mem _ hq)) b hb

/-- The fold never loses a seeded or encountered candidate. -/
theorem gmcvFold_isSome (cs : List Constr) (st : CState) :
    ∀ (l : List Nat) (best : Option (Nat × Nat × Nat)),
      best.isSome = true ∨ (∃ p ∈ l, (varAt st p).value = -1) →
      (gmcvFold cs st l best).isSome = true := by
  intro l
  induction l with
  | nil =>
    intro best h
    rcases h with h | ⟨p, hp, _⟩
    · exact h
    · simp at hp
  | cons p rest ih =>
    intro best h
    simp only [gmcvFold]
    by_cases hun : (varAt st p).value = -1
    · simp only [hun, if_true]
      cases best with
      | none => exact ih _ (Or.inl rfl)
      | some b0 =>
        simp only
        by_cases hcmp : (varAt st p).domain.length < b0.2.1 ∨
            ((varAt st p).domain.length = b0.2.1 ∧
             (constraintsContaining cs p).length > b0.2.2)
        · rw [if_pos hcmp]
          exact ih _ (Or.inl rfl)
        · rw [if_neg hcmp]
          exact ih _ (Or.inl rfl)
    · simp only [hun, if_false]
      rcases h with h | ⟨q, hq, hq2⟩
      · exact ih _ (Or.inl h)
      · rcases List.mem_cons.mp hq with hq | hq
        · rw [hq] at hq2
          exact absurd hq2 hun
        · exact ih _ (Or.inr ⟨q, hq, hq2⟩)

/-- The cell the variable-ordering heuristic picks is a real unassigned
cell. -/
theorem gmcv_some_prop (cs : List Constr) (st : CState) (p : Nat)
    (h : getMostConstrainedVariable cs st = some p) :
    p < st.length ∧ (varAt st p).value = -1 := by
  unfold getMostConstrainedVariable at h
  rcases Option.map_eq_some.mp h with ⟨b, hb, hp⟩
  subst hp
  exact gmcvFold_prop cs st (fun q => q < st.length ∧ (varAt st q).value = -1)
    (List.range st.length) none (fun b2 hb2 => by cases hb2)
    (fun q hq hun => ⟨List.mem_range.mp hq, hun⟩) b hb

/-- On an incomplete state the heuristic always picks a cell. -/
theorem gmcv_some_of_not_complete (cs : List Constr) (st : CState)
    (h : isComplete st = false) : ∃ p, getMostConstrainedVariable cs st = some p := by
  have hne : ¬ AllAssigned st := by
    intro hall
    rw [(isComplete_iff st).mpr hall] at h
    cases h
  rcases not_forall.mp hne with ⟨p, hp⟩
  have hp2 : p < st.length ∧ (varAt st p).value = -1 := by
    by_cases h1 : p < st.length
    · refine ⟨h1, ?_⟩
      by_cases h2 : (varAt st p).value = -1
      · exact h2
      · exact absurd (fun _ => h2) hp
    · exact absurd (fun h2 => absurd h2 h1) hp
  have hs := gmcvFold_isSome cs st (List.range st.length) none
    (Or.inr ⟨p, List.mem_range.mpr hp2.1, hp2.2⟩)
  unfold getMostConstrainedVariable
  rcases Option.isSome_iff_exists.mp hs with ⟨b, hb⟩
  exact ⟨b.1, by rw [hb]; rfl⟩

/-- After a clean AC-3 pass (consistent, no stop, no cap), a fully assigned
result state satisfies every constraint: a violated one would have been
detected. -/
theorem ac3Algorithm_AllSat (cs : List Constr) (N : Nat) (hsb : ScopeBounded cs N)
    (hbig : ScopesBig cs) (st : CState) (m : Mgr) (hlen : st.length = N) (hwf : WFS st)
    (hdne : DomNE st) (hok : (ac3Algorithm cs st m).ok = true)
    (hnt : (ac3Algorithm cs st m).mgr.tripped = false)
    (hnc : (ac3Algorithm cs st m).mgr.capEver = false)
    (hAA : AllAssigned (ac3Algorithm cs st m).st) :
    AllSat cs (ac3Algorithm cs st m).st := by
  intro cn hcn
  by_contra hns
  simp only [Bool.not_eq_true] at hns
  have hvals : ∀ p, (varAt (ac3Algorithm cs st m).st p).value = (varAt st p).value :=
    fun p => ac3Loop_value cs 1000 st (getAllArcs cs) m p
  have hAA2 : AllAssigned st := by
    intro p hp
    rw [← hvals p]
    exact hAA p (by rw [ac3Algorithm_length]; exact hp)
  have hsat0 : isSatisfied st cn = false := by
    rw [isSatisfied_congr_values st (ac3Algorithm cs st m).st hvals cn] at hns
    exact hns
  rcases arc_mem_getAllArcs_of_big cs cn hcn (hbig cn hcn) with ⟨i, j, harc, _, _⟩
  have hdet := ac3Loop_detects cs N hsb 1000 st (getAllArcs cs) m hlen hwf hAA2 hdne
    (getAllArcs_bounds cs N hsb) i j cn harc hsat0
  have hok2 : (ac3Loop cs 1000 st (getAllArcs cs) m).ok = true := hok
  have hnt2 : (ac3Loop cs 1000 st (getAllArcs cs) m).mgr.tripped = false := hnt
  have hnc2 : (ac3Loop cs 1000 st (getAllArcs cs) m).mgr.capEver = false := hnc
  rcases hdet with h | h | h
  · rw [hok2] at h; cases h
  · rw [hnt2] at h; cases h
  · rw [hnc2] at h; cases h

/-- Soundness of the value loop: under a clean final manager, a returned
solution was read off a fully assigned, all-satisfying state of the CSP's
size (assuming the continuation is sound on the states it is handed). -/
theorem tryVals_sound (R C : Nat) (cs : List Constr) (N : Nat) (hsb : ScopeBounded cs N)
    (hbig : ScopesBig cs) (k : CState → Mgr → BtRes)
    (hkle : ∀ st m, MgrLe m (k st m).mgr)
    (hk : ∀ st m, st.length = N → WFS st → DomNE st → (AllAssigned st → AllSat cs st) →
      ∀ sol, (k st m).res = some sol → (k st m).mgr.tripped = false →
      (k st m).mgr.capEver = false →
      ∃ st2, st2.length = N ∧ WFS st2 ∧ AllAssigned st2 ∧ AllSat cs st2 ∧
        sol = toSolutionArray st2 R C)
    (st0 : CState) (p : Nat) (hlen0 : st0.length = N) (hwf0 : WFS st0)
    (hdne0 : DomNE st0) :
    ∀ (vals : List Int) (m : Mgr) (sol : Sol),
      (tryVals k cs st0 p vals m).res = some sol →
      (tryVals k cs st0 p vals m).mgr.tripped = false →
      (tryVals k cs st0 p vals m).mgr.capEver = false →
      ∃ st2, st2.length = N ∧ WFS st2 ∧ AllAssigned st2 ∧ AllSat cs st2 ∧
        sol = toSolutionArray st2 R C := by
  intro vals
  induction vals with
  | nil => intro m sol hr _ _; simp [tryVals] at hr
  | cons v rest ih =>
    intro m sol hr hnt hnc
    simp only [tryVals] at hr hnt hnc
    by_cases hs : (shouldStop m).1 = true
    · simp [hs] at hr
    · simp only [hs, Bool.false_eq_true, if_false] at hr hnt hnc
      cases ha : assignVar st0 p v with
      | none =>
        simp only [ha] at hr hnt hnc
        exact ih _ sol hr hnt hnc
      | some st1 =>
        simp only [ha] at hr hnt hnc
        by_cases hok : (ac3Algorithm cs st1 (shouldStop m).2).ok = true
        · simp only [hok, if_true] at hr hnt hnc
          cases hbres : (k (ac3Algorithm cs st1 (shouldStop m).2).st
              (ac3Algorithm cs st1 (shouldStop m).2).mgr).res with
          | some sol0 =>
            simp only [hbres] at hr hnt hnc
            injection hr with hr2
            rw [hr2] at hbres
            have hpair : v ∈ (varAt st0 p).domain ∧ st1 = setVarAt st0 p ⟨v, [v]⟩ := by
              have ha2 := ha
              rw [assignVar] at ha2
              split_ifs at ha2 with hvd
              refine ⟨hvd, ?_⟩
              injection ha2 with h
              exact h.symm
            have hlen1 : st1.length = N := by
              rw [assignVar_length st0 p v st1 ha]
              exact hlen0
            have hwf1 : WFS st1 := assignVar_WFS st0 p v st1 hwf0 ha
            have hdne1 : DomNE st1 := by
              rcases hpair with ⟨hvd, hst1e⟩
              subst hst1e
              intro q hq
              rw [length_setVarAt] at hq
              by_cases hpq : p = q
              · subst hpq
                rw [varAt_set_self st0 p _ hq]
                simp
              · rw [varAt_set_ne st0 _ hpq]
                exact hdne0 q hq
            have hlenA : (ac3Algorithm cs st1 (shouldStop m).2).st.length = N := by
              rw [ac3Algorithm_length]
              exact hlen1
            have hwfA := ac3Algorithm_WFS cs st1 (shouldStop m).2 hwf1
            have hdneA : DomNE (ac3Algorithm cs st1 (shouldStop m).2).st := by
              have hne := ac3Loop_ok_not_emptied cs 1000 st1 (getAllArcs cs)
                (shouldStop m).2 hok
              exact ac3Loop_domNE cs 1000 st1 (getAllArcs cs) (shouldStop m).2 hdne1 hne
            have hle := hkle (ac3Algorithm cs st1 (shouldStop m).2).st
              (ac3Algorithm cs st1 (shouldStop m).2).mgr
            have hAnt : (ac3Algorithm cs st1 (shouldStop m).2).mgr.tripped = false := by
              cases hx : (ac3Algorithm cs st1 (shouldStop m).2).mgr.tripped with
              | false => rfl
              | true =>
                have hup := hle.1 hx
                rw [hnt] at hup
                cases hup
            have hAnc : (ac3Algorithm cs st1 (shouldStop m).2).mgr.capEver = false := by
              cases hx : (ac3Algorithm cs st1 (shouldStop m).2).mgr.capEver with
              | false => rfl
              | true =>
                have hup := hle.2 hx
                rw [hnc] at hup
                cases hup
            have hinvA : AllAssigned (ac3Algorithm cs st1 (shouldStop m).2).st →
                AllSat cs (ac3Algorithm cs st1 (shouldStop m).2).st :=
              fun hAA => ac3Algorithm_AllSat cs N hsb hbig st1 (shouldStop m).2 hlen1
                hwf1 hdne1 hok hAnt hAnc hAA
            exact hk (ac3Algorithm cs st1 (shouldStop m).2).st
              (ac3Algorithm cs st1 (shouldStop m).2).mgr hlenA hwfA hdneA hinvA
              sol hbres hnt hnc
          | none =>
            simp only [hbres] at hr hnt hnc
            exact ih _ sol hr hnt hnc
        · simp only [hok, Bool.false_eq_true, if_false] at hr hnt hnc
          exact ih _ sol hr hnt hnc

/-- Soundness of the MAC backtracking under a clean final manager: every
returned solution was read off a fully assigned, all-satisfying state. -/
theorem macBacktrackGo_sound (R C : Nat) (cs : List Constr) (N : Nat)
    (hsb : ScopeBounded cs N) (hbig : ScopesBig cs) :
    ∀ (fuel : Nat) (st : CState) (m : Mgr), st.length = N → WFS st → DomNE st →
      (AllAssigned st → AllSat cs st) → ∀ sol,
      (macBacktrackGo R C cs fuel st m).res = some sol →
      (macBacktrackGo R C cs fuel st m).mgr.tripped = false →
      (macBacktrackGo R C cs fuel st m).mgr.capEver = false →
      ∃ st2, st2.length = N ∧ WFS st2 ∧ AllAssigned st2 ∧ AllSat cs st2 ∧
        sol = toSolutionArray st2 R C := by
  intro fuel
  induction fuel with
  | zero => intro st m _ _ _ _ sol hr _ _; simp [macBacktrackGo] at hr
  | succ fuel ih =>
    intro st m hlen hwf hdne hinv sol hr hnt hnc
    simp only [macBacktrackGo] at hr hnt hnc
    by_cases hs : (shouldStop m).1 = true
    · simp [hs] at hr
    · simp only [hs, Bool.false_eq_true, if_false] at hr hnt hnc
      by_cases he : (enterRecursion (shouldStop m).2).1 = true
      · simp [he] at hr
      · simp only [he, Bool.false_eq_true, if_false] at hr hnt hnc
        by_cases hc : isComplete st = true
        · simp only [hc, if_true] at hr
          injection hr with hr2
          exact ⟨st, hlen, hwf, (isComplete_iff st).mp hc,
            hinv ((isComplete_iff st).mp hc), hr2.symm⟩
        · simp only [hc, Bool.false_eq_true, if_false] at hr hnt hnc
          cases hg : getMostConstrainedVariable cs st with
          | none => simp [hg] at hr
          | some p =>
            simp only [hg, exitRecursion] at hr hnt hnc
            exact tryVals_sound R C cs N hsb hbig (macBacktrackGo R C cs fuel)
              (fun st2 m2 => mgrLe_macBacktrackGo R C cs fuel st2 m2)
              (fun st2 m2 h1 h2 h3 h4 sol2 h5 h6 h7 => ih st2 m2 h1 h2 h3 h4 sol2 h5 h6 h7)
              st p hlen hwf hdne (getOrderedValues (varAt st p).domain)
              (enterRecursion (shouldStop m).2).2 sol hr hnt hnc

/-- Completeness of the value loop: when the value the solution prescribes
for the chosen cell is among the candidates, the loop either finds some
solution or a governor trip / AC-3 cap is recorded (assuming the same of
the continuation on solution-respecting states). -/
theorem tryVals_complete (cs : List Constr) (N : Nat) (f : Nat → Int)
    (hfsat : SatisfiesAll f cs) (hsb : ScopeBounded cs N)
    (k : CState → Mgr → BtRes) (fuel : Nat)
    (hkle : ∀ st m, MgrLe m (k st m).mgr)
    (hk : ∀ st m, st.length = N → WFS st → Respects f st → unCount st < fuel →
      ((k st m).res.isSome = true ∨ (k st m).mgr.tripped = true ∨
       (k st m).mgr.capEver = true))
    (st0 : CState) (p : Nat) (hlen0 : st0.length = N) (hwf0 : WFS st0)
    (hresp0 : Respects f st0) (hp : p < st0.length)
    (hun0 : (varAt st0 p).value = -1) (hfc : unCount st0 ≤ fuel) :
    ∀ (vals : List Int) (m : Mgr), f p ∈ vals →
      ((tryVals k cs st0 p vals m).res.isSome = true ∨
       (tryVals k cs st0 p vals m).mgr.tripped = true ∨
       (tryVals k cs st0 p vals m).mgr.capEver = true) := by
  intro vals
  induction vals with
  | nil => intro m hmem; simp at hmem
  | cons v rest ih =>
    intro m hmem
    simp only [tryVals]
    by_cases hs : (shouldStop m).1 = true
    · simp only [hs, if_true]
      right
      left
      exact shouldStop_ghost m hs
    · simp only [hs, Bool.false_eq_true, if_false]
      rcases List.mem_cons.mp hmem with hv | hv
      · subst hv
        have hvd : f p ∈ (varAt st0 p).domain := (hresp0 p hp).2
        have hf01 : f p = 0 ∨ f p = 1 := (hwf0 p).2.1 (f p) hvd
        have ha : assignVar st0 p (f p) = some (setVarAt st0 p ⟨f p, [f p]⟩) := by
          rw [assignVar, if_pos hvd]
        simp only [ha]
        have hlen1 : (setVarAt st0 p ⟨f p, [f p]⟩).length = N := by
          rw [length_setVarAt]
          exact hlen0
        have hwf1 : WFS (setVarAt st0 p ⟨f p, [f p]⟩) := assignVar_WFS st0 p (f p) _ hwf0 ha
        have hresp1 : Respects f (setVarAt st0 p ⟨f p, [f p]⟩) := by
          intro q hq
          rw [length_setVarAt] at hq
          by_cases hpq : p = q
          · subst hpq
            rw [varAt_set_self st0 p _ hq]
            exact ⟨fun _ => rfl, by simp⟩
          · rw [varAt_set_ne st0 _ hpq]
            exact hresp0 q hq
        have hkr := ac3Loop_keeps_respects cs N f hfsat hsb 1000
          (setVarAt st0 p ⟨f p, [f p]⟩) (getAllArcs cs) (shouldStop m).2 hlen1 hwf1
          hresp1 (getAllArcs_bounds cs N hsb)
        by_cases hok : (ac3Algorithm cs (setVarAt st0 p ⟨f p, [f p]⟩) (shouldStop m).2).ok
            = true
        · simp only [hok, if_true]
          have hlenA : (ac3Algorithm cs (setVarAt st0 p ⟨f p, [f p]⟩)
              (shouldStop m).2).st.length = N := by
            rw [ac3Algorithm_length]
            exact hlen1
          have hwfA := ac3Algorithm_WFS cs (setVarAt st0 p ⟨f p, [f p]⟩)
            (shouldStop m).2 hwf1
          have hrespA : Respects f (ac3Algorithm cs (setVarAt st0 p ⟨f p, [f p]⟩)
              (shouldStop m).2).st := hkr.1
          have hcount : unCount (ac3Algorithm cs (setVarAt st0 p ⟨f p, [f p]⟩)
              (shouldStop m).2).st < fuel := by
            have h1 : unCount (ac3Algorithm cs (setVarAt st0 p ⟨f p, [f p]⟩)
                (shouldStop m).2).st = unCount (setVarAt st0 p ⟨f p, [f p]⟩) := by
              refine unCount_congr _ _ (ac3Algorithm_length cs _ _) ?_
              intro q _
              exact ac3Loop_value cs 1000 _ (getAllArcs cs) (shouldStop m).2 q
            have h2 : unCount (setVarAt st0 p ⟨f p, [f p]⟩) + 1 = unCount st0 := by
              refine unCount_set st0 p ⟨f p, [f p]⟩ hp hun0 ?_
              show f p ≠ -1
              rcases hf01 with h | h <;> simp [h]
            omega
          have hres := hk (ac3Algorithm cs (setVarAt st0 p ⟨f p, [f p]⟩)
              (shouldStop m).2).st (ac3Algorithm cs (setVarAt st0 p ⟨f p, [f p]⟩)
              (shouldStop m).2).mgr hlenA hwfA hrespA hcount
          cases hbres : (k (ac3Algorithm cs (setVarAt st0 p ⟨f p, [f p]⟩)
              (shouldStop m).2).st (ac3Algorithm cs (setVarAt st0 p ⟨f p, [f p]⟩)
              (shouldStop m).2).mgr).res with
          | some sol =>
            simp only [hbres]
            left
            rfl
          | none =>
            simp only [hbres]
            rcases hres with hsome | hg | hg
            · rw [hbres] at hsome
              cases hsome
            · right
              left
              exact (mgrLe_tryVals k cs st0 p hkle rest _).1 hg
            · right
              right
              exact (mgrLe_tryVals k cs st0 p hkle rest _).2 hg
        · simp only [hok, Bool.false_eq_true, if_false]
          have hcap : (ac3Algorithm cs (setVarAt st0 p ⟨f p, [f p]⟩)
              (shouldStop m).2).mgr.capEver = true := by
            refine hkr.2 ?_
            cases hx : (ac3Algorithm cs (setVarAt st0 p ⟨f p, [f p]⟩)
                (shouldStop m).2).ok with
            | false => exact hx
            | true => exact absurd hx hok
          right
          right
          exact (mgrLe_tryVals k cs st0 p hkle rest _).2 hcap
      · cases ha : assignVar st0 p v with
        | none =>
          simp only [ha]
          exact ih (shouldStop m).2 hv
        | some st1 =>
          simp only [ha]
          by_cases hok : (ac3Algorithm cs st1 (shouldStop m).2).ok = true
          · simp only [hok, if_true]
            cases hbres : (k (ac3Algorithm cs st1 (shouldStop m).2).st
                (ac3Algorithm cs st1 (shouldStop m).2).mgr).res with
            | some sol =>
              simp only [hbres]
              left
              rfl
            | none =>
              simp only [hbres]
              exact ih _ hv
          · simp only [hok, Bool.false_eq_true, if_false]
            exact ih _ hv

/-- Completeness of the MAC backtracking: on a state that still agrees with
a meeting assignment, with enough fuel, the search either finds some
solution or records a governor trip / AC-3 cap. -/
theorem macBacktrackGo_complete (R C : Nat) (cs : List Constr) (N : Nat) (f : Nat → Int)
    (hfsat : SatisfiesAll f cs) (hsb : ScopeBounded cs N) :
    ∀ (fuel : Nat) (st : CState) (m : Mgr), st.length = N → WFS st → Respects f st →
      unCount st < fuel →
      ((macBacktrackGo R C cs fuel st m).res.isSome = true ∨
       (macBacktrackGo R C cs fuel st m).mgr.tripped = true ∨
       (macBacktrackGo R C cs fuel st m).mgr.capEver = true) := by
  intro fuel
  induction fuel with
  | zero =>
    intro st m _ _ _ hcnt
    exact absurd hcnt (Nat.not_lt_zero _)
  | succ fuel ih =>
    intro st m hlen hwf hresp hcnt
    simp only [macBacktrackGo]
    by_cases hs : (shouldStop m).1 = true
    · simp only [hs, if_true]
      right
      left
      exact shouldStop_ghost m hs
    · simp only [hs, Bool.false_eq_true, if_false]
      by_cases he : (enterRecursion (shouldStop m).2).1 = true
      · simp only [he, if_true]
        right
        left
        exact enterRecursion_ghost (shouldStop m).2 he
      · simp only [he, Bool.false_eq_true, if_false]
        by_cases hc : isComplete st = true
        · simp only [hc, if_true]
          left
          rfl
        · simp only [hc, Bool.false_eq_true, if_false]
          rcases gmcv_some_of_not_complete cs st (by
            cases hx : isComplete st
            · rfl
            · exact absurd hx hc) with ⟨p, hg⟩
          simp only [hg]
          rcases gmcv_some_prop cs st p hg with ⟨hplen, hpun⟩
          have hmem : f p ∈ getOrderedValues (varAt st p).domain :=
            (mem_getOrderedValues _ _).mp (hresp p hplen).2
          have ht := tryVals_complete cs N f hfsat hsb (macBacktrackGo R C cs fuel) fuel
            (fun st2 m2 => mgrLe_macBacktrackGo R C cs fuel st2 m2)
            (fun st2 m2 h1 h2 h3 h4 => ih st2 m2 h1 h2 h3 h4)
            st p hlen hwf hresp hplen hpun (by omega)
            (getOrderedValues (varAt st p).domain)
            (enterRecursion (shouldStop m).2).2 hmem
          rcases ht with h | h | h
          · left
            exact h
          · right
            left
            exact h
          · right
            right
            exact h

theorem encode_lt {x y R C : Nat} (hx : x < R) (hy : y < C) : x * C + y < R * C := by
  have h1 : x * C + y < (x + 1) * C := by
    rw [Nat.succ_mul]
    omega
  have h2 : (x + 1) * C ≤ R * C := Nat.mul_le_mul_right C (by omega)
  omega

theorem encode_div {x y C : Nat} (hy : y < C) : (x * C + y) / C = x := by
  rw [Nat.mul_comm x C, Nat.mul_add_div (by omega), Nat.div_eq_of_lt hy]
  omega

theorem encode_mod {x y C : Nat} (hy : y < C) : (x * C + y) % C = y := by
  rw [Nat.mul_comm x C, Nat.mul_add_mod, Nat.mod_eq_of_lt hy]

/-- Any in-bounds cell one king-step (or zero) away from the center is in
the clipped window. -/
theorem mem_get3x3Area_of_dir (row col rows cols : Nat) (d : Int × Int)
    (hd : d ∈ directions3x3) (x y : Nat)
    (hx : (x : Int) = (row : Int) + d.1) (hy : (y : Int) = (col : Int) + d.2)
    (hxr : x < rows) (hyc : y < cols) :
    (x, y) ∈ get3x3Area row col rows cols := by
  unfold get3x3Area
  refine List.mem_filterMap.mpr ⟨d, hd, ?_⟩
  show (if 0 ≤ (row : Int) + d.1 ∧ (row : Int) + d.1 < (rows : Int) ∧
        0 ≤ (col : Int) + d.2 ∧ (col : Int) + d.2 < (cols : Int) then
        some (((row : Int) + d.1).toNat, ((col : Int) + d.2).toNat) else none) =
      some (x, y)
  rw [if_pos ⟨by omega, by omega, by omega, by omega⟩]
  rw [← hx, ← hy]
  simp

/-- With at least two cells in the grid, every clipped window has at least
two cells: the center and one horizontal or vertical neighbour. -/
theorem two_le_get3x3Area_length (row col rows cols : Nat) (h1 : row < rows)
    (h2 : col < cols) (hts : 2 ≤ rows * cols) :
    2 ≤ (get3x3Area row col rows cols).length := by
  have hcenter := center_mem_get3x3Area h1 h2
  by_cases hc2 : 2 ≤ cols
  · by_cases hcp : col + 1 < cols
    · refine two_le_length_of_mem_ne hcenter
        (mem_get3x3Area_of_dir row col rows cols (0, 1) (by decide) row (col + 1)
          (by omega) (by push_cast; omega) h1 hcp) ?_
      intro hcontra
      have := congrArg Prod.snd hcontra
      simp at this
    · have hcol1 : 1 ≤ col := by omega
      refine two_le_length_of_mem_ne hcenter
        (mem_get3x3Area_of_dir row col rows cols (0, -1) (by decide) row (col - 1)
          (by omega) (by push_cast; omega) h1 (by omega)) ?_
      intro hcontra
      have := congrArg Prod.snd hcontra
      simp at this
      omega
  · have hc1 : cols = 1 := by omega
    have hr2 : 2 ≤ rows := by
      by_contra hr
      have : rows ≤ 1 := by omega
      have : rows * cols ≤ 1 := by
        calc rows * cols ≤ 1 * cols := Nat.mul_le_mul_right cols this
        _ = cols := by omega
        _ = 1 := hc1
      omega
    by_cases hrp : row + 1 < rows
    · refine two_le_length_of_mem_ne hcenter
        (mem_get3x3Area_of_dir row col rows cols (1, 0) (by decide) (row + 1) col
          (by push_cast; omega) (by omega) hrp h2) ?_
      intro hcontra
      have := congrArg Prod.fst hcontra
      simp at this
    · have hrow1 : 1 ≤ row := by omega
      refine two_le_length_of_mem_ne hcenter
        (mem_get3x3Area_of_dir row col rows cols (-1, 0) (by decide) (row - 1) col
          (by push_cast; omega) (by omega) (by omega) h2) ?_
      intro hcontra
      have := congrArg Prod.fst hcontra
      simp at this
      omega

theorem countP_map2 {α β : Type} (p : β → Bool) (f : α → β) (l : List α) :
    (l.map f).countP p = l.countP fun a => p (f a) := by
  induction l with
  | nil => rfl
  | cons a t ih => simp only [List.map_cons, List.countP_cons, ih]

/-- Membership in the constraint list: exactly the clued cells, each with
its clue as requirement and its clipped window as scope. -/
theorem mem_buildConstraints (g : ClueGrid) (R C : Nat) (cn : Constr) :
    cn ∈ buildConstraints g R C ↔
    ∃ r, r < R ∧ ∃ c, c < C ∧ clueAt g r c = some cn.req ∧
      cn = ⟨r, c, cn.req, (get3x3Area r c R C).map (encodePos C)⟩ := by
  unfold buildConstraints
  rw [List.mem_flatMap]
  constructor
  · rintro ⟨r, hr, hc⟩
    rcases List.mem_filterMap.mp hc with ⟨c, hcr, hsome⟩
    refine ⟨r, List.mem_range.mp hr, c, List.mem_range.mp hcr, ?_⟩
    rcases hclue : clueAt g r c with _ | k
    · rw [hclue] at hsome
      cases hsome
    · rw [hclue] at hsome
      injection hsome with hsome
      rw [← hsome]
      exact ⟨rfl, rfl⟩
  · rintro ⟨r, hr, c, hc, hclue, hcne⟩
    refine ⟨r, List.mem_range.mpr hr, ?_⟩
    refine List.mem_filterMap.mpr ⟨c, List.mem_range.mpr hc, ?_⟩
    rw [hclue, hcne]

theorem buildConstraints_bounded (g : ClueGrid) (R C : Nat) :
    ScopeBounded (buildConstraints g R C) (R * C) := by
  intro cn hcn p hp
  rcases (mem_buildConstraints g R C cn).mp hcn with ⟨r, hr, c, hc, _, hcne⟩
  rw [hcne] at hp
  simp only at hp
  rcases List.mem_map.mp hp with ⟨q, hq, hqe⟩
  rcases mem_get3x3Area_bounds hq with ⟨hq1, hq2⟩
  rw [← hqe]
  exact encode_lt hq1 hq2

theorem buildConstraints_big (g : ClueGrid) (R C : Nat) (hRC : 2 ≤ R * C) :
    ScopesBig (buildConstraints g R C) := by
  intro cn hcn
  rcases (mem_buildConstraints g R C cn).mp hcn with ⟨r, hr, c, hc, _, hcne⟩
  rw [hcne]
  simp only [List.length_map]
  exact two_le_get3x3Area_length r c R C hr hc hRC

theorem cellAt_toSolutionArray (st : CState) (R C r c : Nat) (hr : r < R) (hc : c < C) :
    cellAt (toSolutionArray st R C) r c = (varAt st (r * C + c)).value := by
  unfold cellAt toSolutionArray
  rw [getD_map_range _ R r [] hr, getD_map_range _ C c (-2) hc]

/-- A valid solution grid, read row-major, meets every built constraint
exactly (the flat assignment is the grid read through div/mod). -/
theorem satisfiesAll_of_valid (g : ClueGrid) (sol : Sol) (C : Nat)
    (hC : C = (g.headD []).length) (hval : isValidSolution sol g = true) :
    SatisfiesAll (fun p => cellAt sol (p / C) (p % C)) (buildConstraints g g.length C) := by
  intro cn hcn
  rcases (mem_buildConstraints g g.length C cn).mp hcn with ⟨r, hr, c, hc, hclue, hcne⟩
  have hv1 := List.all_eq_true.mp hval r (List.mem_range.mpr hr)
  have hv2 := List.all_eq_true.mp hv1 c (List.mem_range.mpr (by rw [← hC]; exact hc))
  rw [hclue] at hv2
  have hveq := of_decide_eq_true hv2
  rw [length_filter_eq_countP, ← hC] at hveq
  have hscope : cn.scope = (get3x3Area r c g.length C).map (encodePos C) := by
    rw [hcne]
  rw [hscope, countP_map2]
  have hcongr : (get3x3Area r c g.length C).countP
      (fun q => decide ((fun p => cellAt sol (p / C) (p % C)) (encodePos C q) = 1)) =
      (get3x3Area r c g.length C).countP
      (fun q => decide (cellAt sol q.1 q.2 = 1)) := by
    refine countP_congr_of_eq _ _ _ ?_
    intro q hq
    rcases mem_get3x3Area_bounds hq with ⟨_, h2⟩
    show decide (cellAt sol (encodePos C q / C) (encodePos C q % C) = 1) = _
    simp only [encodePos]
    simp only [encode_div h2, encode_mod h2]
  rw [hcongr, hveq]

/-- The solution array of a fully assigned, all-satisfying state is valid:
with no unknowns, `filled ≤ k ≤ filled + unknown` is `filled = k`. -/
theorem isValidSolution_of_allSat (g : ClueGrid) (C : Nat) (hC : C = (g.headD []).length)
    (st : CState) (hlen : st.length = g.length * C) (hAA : AllAssigned st)
    (hAS : AllSat (buildConstraints g g.length C) st) :
    isValidSolution (toSolutionArray st g.length C) g = true := by
  unfold isValidSolution
  rw [List.all_eq_true]
  intro r hrmem
  rw [List.all_eq_true]
  intro c hcmem
  have hr := List.mem_range.mp hrmem
  have hc : c < C := by rw [hC]; exact List.mem_range.mp hcmem
  rcases hclue : clueAt g r c with _ | k
  · simp only [hclue]
  · simp only [hclue, ← hC]
    refine decide_eq_true ?_
    have hcn : (⟨r, c, k, (get3x3Area r c g.length C).map (encodePos C)⟩ : Constr) ∈
        buildConstraints g g.length C :=
      (mem_buildConstraints g g.length C _).mpr ⟨r, hr, c, hc, hclue, rfl⟩
    have hsat := hAS _ hcn
    rw [isSatisfied_iff] at hsat
    have hU : unknownCountC st ((get3x3Area r c g.length C).map (encodePos C)) = 0 := by
      unfold unknownCountC
      refine List.countP_eq_zero.mpr ?_
      intro p hp
      rcases List.mem_map.mp hp with ⟨q, hq, hqe⟩
      rcases mem_get3x3Area_bounds hq with ⟨h1, h2⟩
      subst hqe
      have hidx : encodePos C q < st.length := by
        rw [hlen]
        exact encode_lt h1 h2
      have hne := hAA _ hidx
      simp only [decide_eq_true_eq]
      exact hne
    have hFeq : filledCountC st ((get3x3Area r c g.length C).map (encodePos C)) =
        ((get3x3Area r c g.length C).filter fun q =>
          decide (cellAt (toSolutionArray st g.length C) q.1 q.2 = 1)).length := by
      unfold filledCountC
      rw [countP_map2, length_filter_eq_countP]
      refine countP_congr_of_eq _ _ _ ?_
      intro q hq
      rcases mem_get3x3Area_bounds hq with ⟨h1, h2⟩
      rw [cellAt_toSolutionArray st g.length C q.1 q.2 h1 h2]
      rfl
    rw [← hFeq]
    simp only at hsat
    omega

/-- Claim C1 amended: for a grid of at least two cells, on a run of the CSP
backtracking search (with its source fuel bound of one level per cell plus
one) in which the governor never signalled a stop and no AC-3 invocation
exhausted its 1000-arc cap (the ghosts of the final manager are clear), the
search returns a solution if and only if some filled/empty grid of the
input's shape meets every clue exactly, and every solution it returns meets
every clue exactly. -/
theorem claim_C1_amended (g : ClueGrid) (m : Mgr) (R C : Nat)
    (hR : R = g.length) (hC : C = (g.headD []).length) (hRC : 2 ≤ R * C)
    (hnt : (macBacktrackSearch R C (buildConstraints g R C) (R * C + 1)
      (buildVars R C) m).mgr.tripped = false)
    (hnc : (macBacktrackSearch R C (buildConstraints g R C) (R * C + 1)
      (buildVars R C) m).mgr.capEver = false) :
    ((macBacktrackSearch R C (buildConstraints g R C) (R * C + 1)
      (buildVars R C) m).res.isSome = true ↔ Satisfiable g) ∧
    ∀ sol, (macBacktrackSearch R C (buildConstraints g R C) (R * C + 1)
      (buildVars R C) m).res = some sol → isValidSolution sol g = true := by
  subst hR
  have hC0 : 0 < C := by
    by_contra h
    have hc0 : C = 0 := by omega
    rw [hc0] at hRC
    simp at hRC
  have hsb : ScopeBounded (buildConstraints g g.length C) (g.length * C) :=
    buildConstraints_bounded g g.length C
  have hbig : ScopesBig (buildConstraints g g.length C) :=
    buildConstraints_big g g.length C hRC
  have hwf0 : WFS (buildVars g.length C) := buildVars_WFS g.length C
  have hlen0 : (buildVars g.length C).length = g.length * C := buildVars_length _ _
  have hvar0 : ∀ p < g.length * C, varAt (buildVars g.length C) p = ⟨-1, [0, 1]⟩ := by
    intro p hp
    unfold varAt buildVars
    exact getD_replicate _ _ _ p hp
  have hdne0 : DomNE (buildVars g.length C) := by
    intro p hp
    rw [hlen0] at hp
    rw [hvar0 p hp]
    simp
  have hfex : Satisfiable g → ∃ f : Nat → Int,
      SatisfiesAll f (buildConstraints g g.length C) ∧
      Respects f (buildVars g.length C) := by
    intro hsat
    rcases hsat with ⟨sol, hslen, hrows, h01, hval⟩
    refine ⟨fun p => cellAt sol (p / C) (p % C),
      satisfiesAll_of_valid g sol C hC hval, ?_⟩
    intro p hp
    rw [hlen0] at hp
    rw [hvar0 p hp]
    refine ⟨fun hne => absurd rfl hne, ?_⟩
    have hdiv : p / C < g.length := by
      rw [Nat.div_lt_iff_lt_mul hC0]
      exact hp
    have hmod : p % C < C := Nat.mod_lt _ hC0
    have hrowmem : sol.getD (p / C) [] ∈ sol :=
      getD_mem sol _ [] (by rw [hslen]; exact hdiv)
    have hrlen : (sol.getD (p / C) []).length = C := by
      rw [hrows _ hrowmem]
      exact hC.symm
    have hcellmem : (sol.getD (p / C) []).getD (p % C) (-2) ∈ sol.getD (p / C) [] :=
      getD_mem _ _ _ (by rw [hrlen]; exact hmod)
    have h01c := h01 _ hrowmem _ hcellmem
    show cellAt sol (p / C) (p % C) ∈ ([0, 1] : List Int)
    unfold cellAt
    rcases h01c with h | h <;> rw [h] <;> simp
  have hsound : ∀ sol, (macBacktrackSearch g.length C (buildConstraints g g.length C)
      (g.length * C + 1) (buildVars g.length C) m).res = some sol →
      ∃ st2, st2.length = g.length * C ∧ WFS st2 ∧ AllAssigned st2 ∧
        AllSat (buildConstraints g g.length C) st2 ∧
        sol = toSolutionArray st2 g.length C := by
    intro sol hsol
    have hnt2 := hnt
    have hnc2 := hnc
    by_cases hok : (ac3Algorithm (buildConstraints g g.length C)
        (buildVars g.length C) m).ok = true
    · simp only [macBacktrackSearch, hok, if_true] at hsol hnt2 hnc2
      have hlenA : (ac3Algorithm (buildConstraints g g.length C)
          (buildVars g.length C) m).st.length = g.length * C := by
        rw [ac3Algorithm_length]
        exact hlen0
      have hwfA := ac3Algorithm_WFS (buildConstraints g g.length C)
        (buildVars g.length C) m hwf0
      have hdneA : DomNE (ac3Algorithm (buildConstraints g g.length C)
          (buildVars g.length C) m).st :=
        ac3Loop_domNE _ 1000 _ _ _ hdne0 (ac3Loop_ok_not_emptied _ 1000 _ _ _ hok)
      have hinv : AllAssigned (ac3Algorithm (buildConstraints g g.length C)
          (buildVars g.length C) m).st →
          AllSat (buildConstraints g g.length C) (ac3Algorithm
            (buildConstraints g g.length C) (buildVars g.length C) m).st := by
        intro hAA
        exfalso
        have h0lt : 0 < (ac3Algorithm (buildConstraints g g.length C)
            (buildVars g.length C) m).st.length := by
          rw [hlenA]
          omega
        have hv0 := hAA 0 h0lt
        have hveq : (varAt (ac3Algorithm (buildConstraints g g.length C)
            (buildVars g.length C) m).st 0).value =
            (varAt (buildVars g.length C) 0).value :=
          ac3Loop_value _ 1000 _ _ _ 0
        rw [hveq, hvar0 0 (by omega)] at hv0
        exact hv0 rfl
      exact macBacktrackGo_sound g.length C (buildConstraints g g.length C)
        (g.length * C) hsb hbig (g.length * C + 1) _ _ hlenA hwfA hdneA hinv
        sol hsol hnt2 hnc2
    · simp only [macBacktrackSearch, hok, Bool.false_eq_true, if_false] at hsol
      cases hsol
  have hcomplete : Satisfiable g →
      (macBacktrackSearch g.length C (buildConstraints g g.length C)
        (g.length * C + 1) (buildVars g.length C) m).res.isSome = true := by
    intro hsat
    rcases hfex hsat with ⟨f, hfsat, hresp0⟩
    have hkr := ac3Loop_keeps_respects (buildConstraints g g.length C)
      (g.length * C) f hfsat hsb 1000 (buildVars g.length C)
      (getAllArcs (buildConstraints g g.length C)) m hlen0 hwf0 hresp0
      (getAllArcs_bounds _ _ hsb)
    have hnt2 := hnt
    have hnc2 := hnc
    by_cases hok : (ac3Algorithm (buildConstraints g g.length C)
        (buildVars g.length C) m).ok = true
    · simp only [macBacktrackSearch, hok, if_true] at hnt2 hnc2 ⊢
      have hlenA : (ac3Algorithm (buildConstraints g g.length C)
          (buildVars g.length C) m).st.length = g.length * C := by
        rw [ac3Algorithm_length]
        exact hlen0
      have hwfA := ac3Algorithm_WFS (buildConstraints g g.length C)
        (buildVars g.length C) m hwf0
      have hrespA : Respects f (ac3Algorithm (buildConstraints g g.length C)
          (buildVars g.length C) m).st := hkr.1
      have hcnt : unCount (ac3Algorithm (buildConstraints g g.length C)
          (buildVars g.length C) m).st < g.length * C + 1 := by
        have h1 : unCount (ac3Algorithm (buildConstraints g g.length C)
            (buildVars g.length C) m).st = unCount (buildVars g.length C) := by
          refine unCount_congr _ _ (ac3Algorithm_length _ _ _) ?_
          intro q _
          exact ac3Loop_value _ 1000 _ _ _ q
        rw [h1, unCount_buildVars]
        omega
      rcases macBacktrackGo_complete g.length C (buildConstraints g g.length C)
        (g.length * C) f hfsat hsb (g.length * C + 1) _ _ hlenA hwfA hrespA hcnt
        with h | h | h
      · exact h
      · rw [h] at hnt2
        cases hnt2
      · rw [h] at hnc2
        cases hnc2
    · exfalso
      have hcap : (ac3Algorithm (buildConstraints g g.length C)
          (buildVars g.length C) m).mgr.capEver = true := by
        refine hkr.2 ?_
        cases hx : (ac3Algorithm (buildConstraints g g.length C)
            (buildVars g.length C) m).ok with
        | false => exact hx
        | true => exact absurd hx hok
      simp only [macBacktrackSearch, hok, Bool.false_eq_true, if_false] at hnc2
      rw [hcap] at hnc2
      cases hnc2
  refine ⟨⟨?_, hcomplete⟩, ?_⟩
  · intro hsome
    rcases Option.isSome_iff_exists.mp hsome with ⟨sol, hsol⟩
    rcases hsound sol hsol with ⟨st2, hlen2, hwf2, hAA2, hAS2, hsole⟩
    refine ⟨sol, ?_, ?_, ?_, ?_⟩
    · rw [hsole]
      exact (toSolutionArray_dims st2 g.length C).1
    · intro row hrow
      rw [hsole] at hrow
      rw [(toSolutionArray_dims st2 g.length C).2 row hrow]
      exact hC
    · intro row hrow v hv
      rw [hsole] at hrow
      have h3 := toSolutionArray_WFSol st2 g.length C hwf2 row hrow v hv
      have hne := toSolutionArray_complete st2 g.length C hlen2
        ((isComplete_iff st2).mpr hAA2) row hrow v hv
      rcases h3 with h | h | h
      · exact absurd h hne
      · left
        exact h
      · right
        exact h
    · rw [hsole]
      exact isValidSolution_of_allSat g C hC st2 hlen2 hAA2 hAS2
  · intro sol hsol
    rcases hsound sol hsol with ⟨st2, hlen2, _, hAA2, hAS2, hsole⟩
    rw [hsole]
    exact isValidSolution_of_allSat g C hC st2 hlen2 hAA2 hAS2

/-- Witness for the amended C1 on the 1x2 grid with clue 1 at (0, 0): the
hypotheses hold concretely (two cells, final ghosts clear) and the search
answer coincides with satisfiability. -/
theorem claim_C1_amended_witness :
    2 ≤ 1 * 2 ∧
    ((macBacktrackSearch 1 2 (buildConstraints [[some 1, none]] 1 2) (1 * 2 + 1)
      (buildVars 1 2) defaultMgr).res.isSome = true ↔ Satisfiable [[some 1, none]]) :=
  ⟨by decide,
   (claim_C1_amended [[some 1, none]] defaultMgr 1 2 rfl rfl (by decide) (by decide)
     (by decide)).1⟩

/-- Counterexample for claim C1: the 1x1 grid with clue 1 is satisfiable
(fill the cell), the governor never signals stop and the AC-3 cap is never
reached, yet the search returns the grid [[0]], which meets no clue. -/
theorem claim_C1_cex :
    (macBacktrackSearch 1 1 (buildConstraints [[some 1]] 1 1) 2 (buildVars 1 1)
      defaultMgr.reset).res = some [[0]] ∧
    isValidSolution [[0]] [[some 1]] = false ∧
    Satisfiable [[some 1]] ∧
    (macBacktrackSearch 1 1 (buildConstraints [[some 1]] 1 1) 2 (buildVars 1 1)
      defaultMgr.reset).mgr.tripped = false ∧
    (macBacktrackSearch 1 1 (buildConstraints [[some 1]] 1 1) 2 (buildVars 1 1)
      defaultMgr.reset).mgr.capEver = false ∧
    (macBacktrackSearch 1 1 (buildConstraints [[some 1]] 1 1) 2 (buildVars 1 1)
      defaultMgr.reset).mgr.fuelOut = false :=
  ⟨by decide, by decide, ⟨[[1]], rfl, by decide, by decide, by decide⟩,
    by decide, by decide, by decide⟩

end Mosaic
